import Mathlib

/-! confd, Vault backend (`pkg/backends/vault/client.go`)

A shallow embedding of the Vault backend of confd and theorems about it.

* Go strings are Lean strings; the functions of the Go packages `strings` and
  `path` that the backend calls are modelled on the character lists.
* A value of Go type `interface{}` (decoded JSON) is a `Value`.
* A Go `map[string]string` is a function `String → Option String`; a
  `map[string]interface{}` is an association list, iterated in list order.
* The remote secret store (`*vaultapi.Client`) is a record of functions
  answering each request path.
* A Go panic is the outcome `Abort.panic`; a recursion that outlives its
  recursion budget is the outcome `Abort.outOfFuel`.
* The package-level variable `secretListPath` is threaded through explicitly.
-/

namespace vault

/-! ## Go library functions -/

namespace strings

/-- Go `strings.HasSuffix`. -/
def HasSuffix (s suffix : String) : Bool :=
  suffix.data.isSuffixOf s.data

/-- Go `strings.TrimSuffix`: `s` without the trailing `suffix`, or `s` itself. -/
def TrimSuffix (s suffix : String) : String :=
  if HasSuffix s suffix then ⟨s.data.take (s.data.length - suffix.data.length)⟩ else s

/-- Go `strings.TrimRight`: `s` without its trailing characters that occur in `cutset`. -/
def TrimRight (s cutset : String) : String :=
  ⟨s.data.rdropWhile (fun c => decide (c ∈ cutset.data))⟩

/-- Scan of `strings.ReplaceAll` for a non-empty `old`: `skip` counts the characters of a
matched occurrence that are still to be dropped. -/
def replaceScan (old new : List Char) : Nat → List Char → List Char
  | _, [] => []
  | skip + 1, _ :: cs => replaceScan old new skip cs
  | 0, c :: cs =>
    if old.isPrefixOf (c :: cs) then new ++ replaceScan old new (old.length - 1) cs
    else c :: replaceScan old new 0 cs

/-- Go `strings.ReplaceAll`: every non-overlapping occurrence of `old`, scanning from the
left, is replaced by `new`. For an empty `old` Go inserts `new` before every character and
at the end. -/
def ReplaceAll (s old new : String) : String :=
  if old.data = [] then ⟨new.data ++ s.data.flatMap (fun c => c :: new.data)⟩
  else ⟨replaceScan old.data new.data 0 s.data⟩

/-- Go `strings.Contains`. -/
def Contains (s substr : String) : Prop :=
  substr.data <:+: s.data

instance (s substr : String) : Decidable (Contains s substr) :=
  inferInstanceAs (Decidable (substr.data <:+: s.data))

/-- Scan of `strings.Split` for a non-empty `sep`: `cur` is the current piece, reversed. -/
def splitScan (sep : List Char) : Nat → List Char → List Char → List String
  | _, cur, [] => [⟨cur.reverse⟩]
  | skip + 1, cur, _ :: cs => splitScan sep skip cur cs
  | 0, cur, c :: cs =>
    if sep.isPrefixOf (c :: cs) then ⟨cur.reverse⟩ :: splitScan sep (sep.length - 1) [] cs
    else splitScan sep 0 (c :: cur) cs

/-- Go `strings.Split`: the pieces of `s` between the occurrences of `sep`; for an empty
`sep` the characters of `s`. -/
def Split (s sep : String) : List String :=
  if sep.data = [] then s.data.map (fun c => ⟨[c]⟩)
  else splitScan sep.data 0 [] s.data

end strings

namespace path

/-- One step of the scan of Go `path.Clean` over the `/`-separated elements: empty and `.`
elements are dropped, `..` removes the last real element when there is one and is kept
only in front of a path that is not rooted, any other element is appended. -/
def cleanStep (rooted : Bool) (out : List (List Char)) (elem : List Char) : List (List Char) :=
  if elem = [] ∨ elem = ['.'] then out
  else if elem = ['.', '.'] then
    match out.getLast? with
    | none => if rooted then out else out ++ [elem]
    | some last => if last = ['.', '.'] then out ++ [elem] else out.dropLast
  else out ++ [elem]

/-- The elements that Go `path.Clean` keeps of the path `p`. -/
def cleanElems (p : List Char) : List (List Char) :=
  (p.splitOn '/').foldl (cleanStep (p.head? = some '/')) []

/-- The path that `path.Clean` writes for the kept elements. -/
def render (rooted : Bool) (elems : List (List Char)) : List Char :=
  if rooted then '/' :: List.intercalate ['/'] elems
  else if elems = [] then ['.'] else List.intercalate ['/'] elems

/-- Go `path.Clean`: the shortest path name equivalent to `p` by purely lexical processing. -/
def Clean (p : String) : String :=
  if p.data = [] then "." else ⟨render (p.data.head? = some '/') (cleanElems p.data)⟩

/-- The buffer that `path.Join` builds before cleaning: leading empty elements are
ignored, every later element is appended after a `/`. -/
def joinBuf : List Char → List String → List Char
  | buf, [] => buf
  | buf, e :: rest =>
    if buf ≠ [] ∨ e.data ≠ [] then
      joinBuf ((if buf ≠ [] then buf ++ ['/'] else buf) ++ e.data) rest
    else joinBuf buf rest

/-- Go `path.Join`: the elements joined with `/` and cleaned; the empty string when all
elements are empty. -/
def Join (elem : List String) : String :=
  if (elem.map (fun e => e.data.length)).sum = 0 then "" else Clean ⟨joinBuf [] elem⟩

end path

/-! ## Data model -/

/-- A Go `error`, identified with its message. -/
abbrev Error := String

/-- A dynamic value of Go type `interface{}` as the Vault API decodes it from JSON. -/
inductive Value where
  | str (s : String)
  | map (entries : List (String × Value))
  | num (repr : String)
  | bool (b : Bool)
  | list (items : List Value)
  | null

/-- Index expression `m[key]` on a `map[string]interface{}`: the entry, or the nil
interface when there is none. -/
def index : List (String × Value) → String → Value
  | [], _ => .null
  | (k, v) :: rest, key => if k = key then v else index rest key

/-- The `Auth` block of a `vaultapi.Secret`. -/
structure SecretAuth where
  ClientToken : String

/-- The fields of `vaultapi.Secret` that the backend reads. -/
structure Secret where
  Data : List (String × Value)
  Auth : Option SecretAuth

/-- The value carried by a Go panic. -/
inductive PanicValue where
  | str (msg : String)
  | err (e : Error)
  | other
  deriving DecidableEq

/-- Why a run did not return. -/
inductive Abort where
  | panic (p : PanicValue)
  | outOfFuel
  deriving DecidableEq

/-- Outcome of running Go code that may panic. -/
abbrev Run := Except Abort

/-- The run-time panic of a failed type assertion or a nil dereference. -/
def runtimePanic (msg : String) : Run α :=
  .error (.panic (.err msg))

/-- Type assertion `v.([]interface{})`. -/
def assertSlice : Value → Run (List Value)
  | .list items => .ok items
  | _ => runtimePanic "interface conversion: value is not a slice"

/-- Type assertion `v.(string)`. -/
def assertString : Value → Run String
  | .str s => .ok s
  | _ => runtimePanic "interface conversion: value is not a string"

/-- Type assertion `v.(map[string]interface{})`. -/
def assertMap : Value → Run (List (String × Value))
  | .map entries => .ok entries
  | _ => runtimePanic "interface conversion: value is not a map"

/-- The requests of `*vaultapi.Client` that the backend issues, each answered by the
remote store with a Go result pair. `readRaw` answers with the response body. -/
structure Client where
  list : String → Option Secret × Option Error
  read : String → Option Secret × Option Error
  write : String → List (String × Value) → Option Secret × Option Error
  readRaw : String → Option String × Option Error

/-! ## Listing -/

/-- ListSecret returns a list of secrets from Vault. -/
def ListSecret (vault : Client) (path key version : String) : Option Secret × Option Error :=
  if version = "1" then vault.list (path ++ key)
  else if version = "2" then vault.list (path ++ "/metadata/" ++ key)
  else (none, none)

/-- RecursiveListSecret returns a list of secrets paths from Vault. The last argument is
the package-level variable `secretListPath` before the call; the result is the returned
slice together with `secretListPath` after the call. -/
def RecursiveListSecret :
    Nat → Client → String → String → String → List String → Run (List String × List String)
  | 0, _, _, _, _, _ => .error .outOfFuel
  | fuel + 1, vault, path, key, version, secretListPath =>
    if version = "1" then
      match ListSecret vault path key version with
      | (some secretList, none) => do
        let keys ← assertSlice (index secretList.Data "keys")
        let secretListPath ← keys.foldlM (fun secretListPath secret => do
          let s ← assertString secret
          if strings.HasSuffix s "/" then
            let key := key ++ "/" ++ strings.TrimSuffix s "/"
            let r ← RecursiveListSecret fuel vault path key version secretListPath
            pure r.2
          else
            let key := key ++ "/" ++ strings.TrimSuffix s "/"
            pure ((path ++ key) :: secretListPath)) secretListPath
        pure (secretListPath, secretListPath)
      | _ => pure (path :: secretListPath, path :: secretListPath)
    else if version = "2" then
      match ListSecret vault path key version with
      | (some secretList, none) => do
        let keys ← assertSlice (index secretList.Data "keys")
        let secretListPath ← keys.foldlM (fun secretListPath secret => do
          let s ← assertString secret
          if strings.HasSuffix s "/" then
            let key := key ++ "/" ++ strings.TrimSuffix s "/"
            let r ← RecursiveListSecret fuel vault path key version secretListPath
            pure r.2
          else
            let key := key ++ "/" ++ strings.TrimSuffix s "/"
            pure ((path ++ "/data" ++ key) :: secretListPath)) secretListPath
        pure (secretListPath, secretListPath)
      | _ => pure ((path ++ "data/") :: secretListPath, (path ++ "data/") :: secretListPath)
    else pure ([], secretListPath)

/-! ## Secret trees

The specification side of the listing: a finite tree of directories and leaf secrets, the
store that serves it, and the paths of its leaves. -/

mutual
/-- A directory of a secret tree: one whose listing the store answers with `entries`, or
one whose listing yields nothing (no response, or an error). -/
inductive Dir where
  | listed (entries : List Entry)
  | unlisted
/-- A child of a directory: a leaf secret, or a sub-directory. -/
inductive Entry where
  | leaf (name : String)
  | sub (name : String) (d : Dir)
end

/-- The name under which the list operation reports a child: sub-directory names end
in `/`. -/
def Entry.key : Entry → String
  | .leaf name => name
  | .sub name _ => name ++ "/"

mutual
/-- Number of directory levels of a tree. -/
def Dir.height : Dir → Nat
  | .listed es => heightOf es + 1
  | .unlisted => 1
/-- Largest height among the sub-directories of a list of children. -/
def heightOf : List Entry → Nat
  | [] => 0
  | .leaf _ :: rest => heightOf rest
  | .sub _ d :: rest => max (Dir.height d) (heightOf rest)
end

mutual
/-- The leaves of a tree in depth-first order, each as the names leading to it. -/
def Dir.leafNames : Dir → List (List String)
  | .listed es => leafNamesOf es
  | .unlisted => []
/-- The leaves below a list of children. -/
def leafNamesOf : List Entry → List (List String)
  | [] => []
  | .leaf n :: rest => [n] :: leafNamesOf rest
  | .sub n d :: rest => (Dir.leafNames d).map (fun ns => n :: ns) ++ leafNamesOf rest
end

mutual
/-- Number of directories of a tree whose listing yields nothing. -/
def Dir.failures : Dir → Nat
  | .listed es => failuresOf es
  | .unlisted => 1
/-- Number of unlisted directories below a list of children. -/
def failuresOf : List Entry → Nat
  | [] => 0
  | .leaf _ :: rest => failuresOf rest
  | .sub _ d :: rest => Dir.failures d + failuresOf rest
end

mutual
/-- No leaf name of the tree ends in `/`: the trailing separator marks sub-directories. -/
def Dir.WellNamed : Dir → Prop
  | .listed es => WellNamedAll es
  | .unlisted => True
/-- No leaf name below a list of children ends in `/`. -/
def WellNamedAll : List Entry → Prop
  | [] => True
  | .leaf n :: rest => strings.HasSuffix n "/" = false ∧ WellNamedAll rest
  | .sub _ d :: rest => Dir.WellNamed d ∧ WellNamedAll rest
end

mutual
/-- The store serves the tree `d` at the relative key `key` of the mount `path`: the list
call that the lister issues for each listed directory is answered, without error, with the
names of that directory's children, and the one for each unlisted directory is answered
with no secret or with an error. -/
def Serves (vault : Client) (path version : String) : String → Dir → Prop
  | key, .listed es =>
    (∃ secret, ListSecret vault path key version = (some secret, none) ∧
      index secret.Data "keys" = .list (es.map (fun e => .str e.key))) ∧
    ServesAll vault path version key es
  | key, .unlisted => ∀ secret, ListSecret vault path key version ≠ (some secret, none)
/-- The store serves every sub-directory of a list of children found at `key`. -/
def ServesAll (vault : Client) (path version : String) : String → List Entry → Prop
  | _, [] => True
  | key, .leaf _ :: rest => ServesAll vault path version key rest
  | key, .sub n d :: rest =>
    Serves vault path version (key ++ "/" ++ n) d ∧ ServesAll vault path version key rest
end

/-- Names joined by `/`. -/
def joinNames : List String → String
  | [] => ""
  | [n] => n
  | n :: rest => n ++ "/" ++ joinNames rest

/-- The path of the leaf secret reached by `names` below `mount`. -/
def secretPath (mount version : String) (names : List String) : String :=
  if version = "1" then mount ++ "/" ++ joinNames names
  else mount ++ "/data/" ++ joinNames names

/-- The path that the lister records when a list call yields nothing. -/
def degeneratePath (mount version : String) : String :=
  if version = "1" then mount else mount ++ "data/"

/-- The prefix under which the lister records the leaves of a mount. -/
def leafPrefix (mount version : String) : String :=
  if version = "1" then mount else mount ++ "/data"

mutual
/-- The paths that a depth-first walk of the tree at `key` records, in the order of
discovery: one per leaf, and the degenerate path for each unlisted directory. -/
def Dir.discovered (mount version : String) : String → Dir → List String
  | key, .listed es => discoveredOf mount version key es
  | _, .unlisted => [degeneratePath mount version]
/-- The paths recorded for a list of children found at `key`. -/
def discoveredOf (mount version : String) : String → List Entry → List String
  | _, [] => []
  | key, .leaf n :: rest =>
    (leafPrefix mount version ++ (key ++ "/" ++ n)) :: discoveredOf mount version key rest
  | key, .sub n d :: rest =>
    Dir.discovered mount version (key ++ "/" ++ n) d ++ discoveredOf mount version key rest
end

/-! ## Example stores -/

/-- The secret that a list call returns for a directory with the given entry names. -/
def keysSecret (names : List String) : Secret :=
  ⟨[("keys", .list (names.map .str))], none⟩

/-- A store without secrets: every request is answered with nothing. -/
def emptyClient : Client where
  list := fun _ => (none, none)
  read := fun _ => (none, none)
  write := fun _ _ => (none, none)
  readRaw := fun _ => (none, none)

/-- A version 2 mount `/m` with the children `x` and `y/`, the latter containing `z`. -/
def exampleTree : Dir :=
  .listed [.leaf "x", .sub "y" (.listed [.leaf "z"])]

/-- A store serving `exampleTree` as a version 2 mount `/m`. -/
def exampleStore : Client :=
  { emptyClient with
    list := fun p =>
      if p = "/m/metadata/" then (some (keysSecret ["x", "y/"]), none)
      else if p = "/m/metadata//y" then (some (keysSecret ["z"]), none)
      else (none, none) }

/-- A version 1 mount `/m` with the leaf `x` and the sub-directory `y/` whose listing
yields nothing. -/
def brokenTree : Dir :=
  .listed [.leaf "x", .sub "y" .unlisted]

/-- A store serving `brokenTree` as a version 1 mount `/m`: it answers the listing of the
mount and nothing else. -/
def brokenStore : Client :=
  { emptyClient with
    list := fun p =>
      if p = "/m" then (some (keysSecret ["x", "y/"]), none) else (none, none) }

/-- A store with two version 1 mounts, `/a` holding the secret `x` and `/b` holding `y`. -/
def twoMountStore : Client :=
  { emptyClient with
    list := fun p =>
      if p = "/a" then (some (keysSecret ["x"]), none)
      else if p = "/b" then (some (keysSecret ["y"]), none)
      else (none, none) }

/-! ## Flattening -/

/-- A Go `map[string]string`. -/
abbrev Vars := String → Option String

/-- Assignment `vars[key] = value`. -/
def Vars.set (vars : Vars) (key value : String) : Vars :=
  fun k => if k = key then some value else vars k

mutual
/-- Recursively walks on all the keys of a specific secret and set them in the variables
map. -/
def flatten : String → Value → String → Vars → Vars
  | key, .str s, _, vars =>
    let key := strings.ReplaceAll key "data/" ""
    vars.set key s
  | key, .map inner, mount, vars => flattenEntries key inner mount vars
  | _, _, _, vars => vars
/-- The loop of `flatten` over the entries of a mapping. -/
def flattenEntries : String → List (String × Value) → String → Vars → Vars
  | _, [], _, vars => vars
  | key, (innerKey, innerValue) :: rest, mount, vars =>
    let innerKey := path.Join [key, "/", innerKey]
    flattenEntries key rest mount (flatten innerKey innerValue mount vars)
end

/-! ## Mounts -/

/-- The mount of a path: `/` and the second element of the path split at the separator
(`os.PathSeparator`, which is `/` on the platforms confd runs on). The index expression
`split[1]` panics when the split has a single element. -/
def getMount (path : String) : Run String :=
  let split := strings.Split path "/"
  match split[1]? with
  | some s => pure ("/" ++ s)
  | none => runtimePanic "index out of range [1] with length 1"

/-- The items of `strSlice` without repeats; `allKeys` is the set of items seen. -/
def uniqMounts (strSlice : List String) : List String :=
  (strSlice.foldl (fun (st : (String → Option Bool) × List String) item =>
      if (st.1 item).isNone then
        (fun k => if k = item then some true else st.1 k, st.2 ++ [item])
      else st)
    (fun _ => none, [])).2

/-! ## Authentication -/

/-- A request issued to the remote store. -/
inductive Request where
  | read (path : String)
  | write (path : String) (body : List (String × Value))
  | readRaw (path : String)

/-- The mutable side of a `*vaultapi.Client`: its token, and the log of the read and write
requests issued through it, oldest first. -/
structure Session where
  token : String
  requests : List Request

/-- Get a parameter; panics if it is missing (absent or empty) from the configuration. -/
def getParameter (key : String) (parameters : String → Option String) :
    Except PanicValue String :=
  let value := (parameters key).getD ""
  if value = "" then .error (.str (key ++ " is missing from configuration")) else .ok value

/-- How control leaves the `switch authType` statement of `authenticate`. -/
inductive Switch where
  | fellThrough (secret : Option Secret) (err : Option Error)
  | returned (err : Option Error)

/-- `c.Logical().Write(url, body)`, logged. -/
def Session.write (c : Client) (url : String) (body : List (String × Value)) (s : Session) :
    (Option Secret × Option Error) × Session :=
  (c.write url body, { s with requests := s.requests ++ [.write url body] })

/-- The `switch authType` statement of `authenticate`. Arguments are evaluated before the
call they belong to, so a panicking `getParameter` leaves the session as it is. In the
`kubernetes` case `jwt, err := os.ReadFile(...)` declares a new `err`, and the result of
the login call is assigned to that inner variable: the error seen after the switch stays
nil. `tokenFile` is the outcome of reading the service-account token file. -/
def loginSwitch (c : Client) (tokenFile : Except Error String) (authType url : String)
    (params : String → Option String) (s : Session) : Except PanicValue Switch × Session :=
  if authType = "app-role" then
    match getParameter "role-id" params with
    | .error p => (.error p, s)
    | .ok roleId =>
      match getParameter "secret-id" params with
      | .error p => (.error p, s)
      | .ok secretId =>
        let r := s.write c url [("role_id", .str roleId), ("secret_id", .str secretId)]
        (.ok (.fellThrough r.1.1 r.1.2), r.2)
  else if authType = "app-id" then
    match getParameter "app-id" params with
    | .error p => (.error p, s)
    | .ok appId =>
      match getParameter "user-id" params with
      | .error p => (.error p, s)
      | .ok userId =>
        let r := s.write c url [("app_id", .str appId), ("user_id", .str userId)]
        (.ok (.fellThrough r.1.1 r.1.2), r.2)
  else if authType = "github" then
    match getParameter "token" params with
    | .error p => (.error p, s)
    | .ok token =>
      let r := s.write c url [("token", .str token)]
      (.ok (.fellThrough r.1.1 r.1.2), r.2)
  else if authType = "token" then
    match getParameter "token" params with
    | .error p => (.error p, s)
    | .ok token =>
      let s := { s with token := token }
      let r := c.read "/auth/token/lookup-self"
      (.ok (.fellThrough r.1 r.2),
        { s with requests := s.requests ++ [.read "/auth/token/lookup-self"] })
  else if authType = "userpass" then
    match getParameter "username" params with
    | .error p => (.error p, s)
    | .ok username =>
      match getParameter "password" params with
      | .error p => (.error p, s)
      | .ok password =>
        let r := s.write c (url ++ "/" ++ username) [("password", .str password)]
        (.ok (.fellThrough r.1.1 r.1.2), r.2)
  else if authType = "kubernetes" then
    match tokenFile with
    | .error e => (.ok (.returned (some e)), s)
    | .ok jwt =>
      match getParameter "role-id" params with
      | .error p => (.error p, s)
      | .ok role =>
        let r := s.write c url [("jwt", .str jwt), ("role", .str role)]
        (.ok (.fellThrough r.1.1 none), r.2)
  else if authType = "cert" then
    let r := s.write c url []
    (.ok (.fellThrough r.1.1 r.1.2), r.2)
  else (.ok (.fellThrough none none), s)

/-- The body of `authenticate`, before the deferred `panicToError` runs. -/
def authenticateBody (c : Client) (tokenFile : Except Error String) (authType : String)
    (params : String → Option String) (s : Session) :
    Except PanicValue (Option Error) × Session :=
  let path := (params "path").getD ""
  let path := if path = "" then (if authType = "app-role" then "approle" else authType) else path
  let url := "/auth/" ++ path ++ "/login"
  match loginSwitch c tokenFile authType url params s with
  | (.error p, s) => (.error p, s)
  | (.ok (.returned err), s) => (.ok err, s)
  | (.ok (.fellThrough secret err), s) =>
    if err ≠ none then (.ok err, s)
    -- if the token has already been set
    else if s.token ≠ "" then (.ok none, s)
    else
      match secret with
      | some ⟨_, some auth⟩ => (.ok none, { s with token := auth.ClientToken })
      | _ => (.ok (some "unable to authenticate"), s)

/-- The deferred panicToError converts a panic to an error: a panic carrying a string or an
error becomes the returned error, any other panic goes on. -/
def panicToError (r : Except PanicValue (Option Error) × Session) :
    Except PanicValue (Option Error) × Session :=
  match r with
  | (.error (.str t), s) => (.ok (some t), s)
  | (.error (.err t), s) => (.ok (some t), s)
  | (.error .other, s) => (.error .other, s)
  | (.ok err, s) => (.ok err, s)

/-- Authenticate with the remote client: the returned error (or the panic that escapes),
and the session afterwards. -/
def authenticate (c : Client) (tokenFile : Except Error String) (authType : String)
    (params : String → Option String) (s : Session) :
    Except PanicValue (Option Error) × Session :=
  panicToError (authenticateBody c tokenFile authType params s)

/-- The parameters that the table of login methods requires of each method. -/
def requiredParams (authType : String) : List String :=
  if authType = "app-role" then ["role-id", "secret-id"]
  else if authType = "app-id" then ["app-id", "user-id"]
  else if authType = "github" then ["token"]
  else if authType = "token" then ["token"]
  else if authType = "userpass" then ["username", "password"]
  else if authType = "kubernetes" then ["role-id"]
  else []

/-- A parameter mapping given by its entries. -/
def paramsOf (entries : List (String × String)) : String → Option String :=
  fun key => (entries.find? (fun e => e.1 = key)).map Prod.snd

/-! ## Fetching values -/

/-- The library functions that `GetValues` calls on what the store returns:
`vaultapi.ParseSecret` on the body of a raw response, and `json.Marshal`. -/
structure Codec where
  ParseSecret : String → Option Secret × Option Error
  Marshal : Value → String

/-- Comparison `v == s` of an `interface{}` with a string. -/
def Value.eqString : Value → String → Bool
  | .str t, s => t = s
  | _, _ => false

/-- What a call of `GetValues` has done so far: the result mapping, the package-level
`secretListPath`, and the raw reads and reads it has issued, oldest first. -/
structure Fetch where
  vars : Vars
  secretListPath : List String
  requests : List Request

/-- The body of the loop of `GetValues` over the secrets of a version 1 mount. Evaluating
`resp.Data` on a nil response is a nil dereference. -/
def readSecretV1 (c : Client) (lib : Codec) (mount : String) (st : Fetch) (secret : String) :
    Run Fetch :=
  let st : Fetch := { st with requests := st.requests ++ [Request.read secret] }
  match (c.read secret).1 with
  | none => runtimePanic "invalid memory address or nil pointer dereference"
  | some resp =>
    let js := lib.Marshal (.map resp.Data)
    let vars := st.vars.set secret js
    pure { st with vars := flatten secret (.map resp.Data) mount vars }

/-- The body of the loop of `GetValues` over the secrets of a version 2 mount. -/
def readSecretV2 (c : Client) (lib : Codec) (mount : String) (st : Fetch) (secret : String) :
    Run Fetch :=
  let st : Fetch := { st with requests := st.requests ++ [Request.read secret] }
  match (c.read secret).1 with
  | none => runtimePanic "invalid memory address or nil pointer dereference"
  | some resp =>
    let js := lib.Marshal (index resp.Data "data")
    let vars := st.vars.set secret js
    pure { st with vars := flatten secret (index resp.Data "data") mount vars }

/-- The body of the loop of `GetValues` over the mounts. The errors of the raw read and of
the parse are printed and the loop body goes on: `resp.Body` on a nil response and
`secret.Data` on a nil secret are nil dereferences. -/
def fetchMount (fuel : Nat) (c : Client) (lib : Codec) (st : Fetch) (mount : String) :
    Run Fetch := do
  let st : Fetch :=
    { st with requests := st.requests ++ [Request.readRaw ("/sys/internal/ui/mounts/" ++ mount)] }
  let body ← match (c.readRaw ("/sys/internal/ui/mounts/" ++ mount)).1 with
    | some body => pure body
    | none => runtimePanic "invalid memory address or nil pointer dereference"
  let secret ← match (lib.ParseSecret body).1 with
    | some secret => pure secret
    | none => runtimePanic "invalid memory address or nil pointer dereference"
  let engine := index secret.Data "type"
  if engine.eqString "kv" then
    let options := index secret.Data "options"
    let versionRaw := index (← assertMap options) "version"
    let version ← assertString versionRaw
    let key := ""
    if version = "" ∨ version = "1" then
      let r ← RecursiveListSecret fuel c mount key version st.secretListPath
      r.1.foldlM (readSecretV1 c lib mount) { st with secretListPath := r.2 }
    else if version = "2" then
      let r ← RecursiveListSecret fuel c mount key version st.secretListPath
      r.1.foldlM (readSecretV2 c lib mount) { st with secretListPath := r.2 }
    else pure st
  else pure st

/-- GetValues queries Vault for keys prefixed by prefix. The last argument is the
package-level `secretListPath` before the call; the returned error is always nil, so the
result is the mapping, together with `secretListPath` and the requests issued. -/
def GetValues (fuel : Nat) (c : Client) (lib : Codec) (paths : List String)
    (secretListPath : List String) : Run Fetch := do
  let mounts ← paths.foldlM (fun mounts path => do
    let path := strings.TrimRight path "/*"
    pure (mounts ++ [← getMount path])) []
  let mounts := uniqMounts mounts
  mounts.foldlM (fetchMount fuel c lib) ⟨fun _ => none, secretListPath, []⟩

/-- A store that answers every login with an auth block carrying the client token `new`. -/
def loginStore : Client :=
  { emptyClient with write := fun _ _ => (some ⟨[], some ⟨"new"⟩⟩, none) }

/-- The mount metadata of a key-value engine with the given entries of `options`. -/
def kvMount (options : List (String × Value)) : Secret :=
  ⟨[("type", .str "kv"), ("options", .map options)], none⟩

/-- A codec that parses the bodies `kv1`, `kv-empty` and `kv-absent` as the metadata of a
key-value mount whose version is "1", is the empty string, or is absent, fails to parse
any other body, and marshals every value to `js`. -/
def exampleCodec : Codec where
  ParseSecret := fun body =>
    if body = "kv1" then (some (kvMount [("version", .str "1")]), none)
    else if body = "kv-empty" then (some (kvMount [("version", .str "")]), none)
    else if body = "kv-absent" then (some (kvMount []), none)
    else (none, some "invalid character")
  Marshal := fun _ => "js"

/-- A store with one mount `/a` holding the secret `x` with the field `f = v`; the mount
metadata probe of `/a` is answered with the body `probeA`, the probe of `/b` with
`probeB`. -/
def kvStore (probeA probeB : Option String × Option Error) : Client :=
  { emptyClient with
    list := fun p => if p = "/a" then (some (keysSecret ["x"]), none) else (none, none)
    read := fun p =>
      if p = "/a/x" then (some ⟨[("f", .str "v")], none⟩, none) else (none, none)
    readRaw := fun p =>
      if p = "/sys/internal/ui/mounts//a" then probeA
      else if p = "/sys/internal/ui/mounts//b" then probeB
      else (none, some "no route") }

/-! ## Specification of flattening -/

namespace path

/-- A path element that `path.Clean` keeps as it is. -/
def Real (e : List Char) : Prop :=
  e ≠ [] ∧ e ≠ ['.'] ∧ e ≠ ['.', '.'] ∧ '/' ∉ e

/-- The shape of the elements of a cleaned path: `..` elements, none if the path is
rooted, followed by real elements. -/
def Canon (rooted : Bool) (st : List (List Char)) : Prop :=
  ∃ m reals, st = List.replicate m ['.', '.'] ++ reals ∧ (rooted = true → m = 0) ∧
    ∀ e ∈ reals, Real e

end path

/-- A name of a mapping entry that `path.Join` appends as it is: not empty, without `/`,
and neither `.` nor `..`. -/
def GoodName (n : String) : Prop :=
  n ≠ "" ∧ '/' ∉ n.data ∧ n ≠ "." ∧ n ≠ ".."

mutual
/-- The string leaves of a value in the order of the walk, each with the entry names
leading to it. -/
def Value.fields : Value → List (List String × String)
  | .str s => [([], s)]
  | .map es => fieldsOf es
  | _ => []
/-- The string leaves below the entries of a mapping. -/
def fieldsOf : List (String × Value) → List (List String × String)
  | [] => []
  | (n, v) :: rest => (Value.fields v).map (fun f => (n :: f.1, f.2)) ++ fieldsOf rest
end

mutual
/-- A nested mapping whose leaves are all strings, whose entry names are good and, as in
every Go map, differ within each mapping. -/
def Value.Plain : Value → Prop
  | .str _ => True
  | .map es => PlainAll es
  | _ => False
/-- The entries of a plain mapping. -/
def PlainAll : List (String × Value) → Prop
  | [] => True
  | (n, v) :: rest => GoodName n ∧ (∀ e ∈ rest, e.1 ≠ n) ∧ Value.Plain v ∧ PlainAll rest
end

/-- The key of a cleaned path followed by entry names. -/
def keyAt (r : Bool) (st : List (List Char)) (ns : List String) : String :=
  ⟨path.render r (st ++ ns.map String.data)⟩

/-! ## Specification of the further claims -/

/-- A value that `flatten` does not know how to handle: neither a string nor a mapping. -/
def Value.Unsupported : Value → Prop
  | .str _ => False
  | .map _ => False
  | _ => True

/-- A version 1 mount `/a` whose listing yields the secrets `x` and `y`; the read of `y`
succeeds and the read of `x` fails with an error and no payload. -/
def failingReadStore : Client :=
  { emptyClient with
    list := fun p => if p = "/a" then (some (keysSecret ["x", "y"]), none) else (none, none)
    read := fun p =>
      if p = "/a/y" then (some ⟨[("f", .str "v")], none⟩, none)
      else (none, some "permission denied")
    readRaw := fun p =>
      if p = "/sys/internal/ui/mounts//a" then (some "kv1", none) else (none, some "no route") }

/-- The login path segment of the method table: the `path` parameter when it is supplied
and not empty, else `approle` for app-role and the method name for the other methods. -/
def tableSegment (authType : String) (params : String → Option String) : String :=
  if (params "path").getD "" = "" then (if authType = "app-role" then "approle" else authType)
  else (params "path").getD ""

/-- The login path of the method table, as the code writes it, with a leading `/`. -/
def tablePath (authType : String) (params : String → Option String) : String :=
  if authType = "userpass" then
    "/auth/" ++ tableSegment authType params ++ "/login" ++ "/" ++ (params "username").getD ""
  else "/auth/" ++ tableSegment authType params ++ "/login"

/-- The request body of the method table; `jwt` is the content of the service-account
token file. -/
def tableBody (authType : String) (params : String → Option String) (jwt : String) :
    List (String × Value) :=
  if authType = "app-role" then
    [("role_id", .str ((params "role-id").getD "")), ("secret_id", .str ((params "secret-id").getD ""))]
  else if authType = "app-id" then
    [("app_id", .str ((params "app-id").getD "")), ("user_id", .str ((params "user-id").getD ""))]
  else if authType = "github" then [("token", .str ((params "token").getD ""))]
  else if authType = "userpass" then [("password", .str ((params "password").getD ""))]
  else if authType = "kubernetes" then
    [("jwt", .str jwt), ("role", .str ((params "role-id").getD ""))]
  else []

/-- The paths of the raw reads among the requests, oldest first. -/
def probes : List Request → List String
  | [] => []
  | .readRaw p :: rest => p :: probes rest
  | _ :: rest => probes rest

/-- A version 1 mount `/a` with the secret `mydata`, whose payload has the field `data`, and
the secret `x`, whose payload has a field named `.`. -/
def blobStore : Client :=
  { emptyClient with
    list := fun p => if p = "/a" then (some (keysSecret ["mydata", "x"]), none) else (none, none)
    read := fun p =>
      if p = "/a/mydata" then (some ⟨[("data", .str "v")], none⟩, none)
      else if p = "/a/x" then (some ⟨[(".", .str "w")], none⟩, none)
      else (none, none)
    readRaw := fun p =>
      if p = "/sys/internal/ui/mounts//a" then (some "kv1", none) else (none, some "no route") }

/-- A store whose login at `/auth/github/login` succeeds with the client token `new` and
whose every other write fails. -/
def pickyStore : Client :=
  { emptyClient with
    write := fun p _ =>
      if p = "/auth/github/login" then (some ⟨[], some ⟨"new"⟩⟩, none)
      else (none, some "permission denied") }

/-- The key at which `flatten`, started at the key `key`, arrives along the entry names
`names`: at each mapping entry it joins the entry name to the current key as the loop of
`flatten` does. -/
def fieldKey : String → List String → String
  | key, [] => key
  | key, n :: names => fieldKey (path.Join [key, "/", n]) names

/-- The key under which `flatten`, started at the key `p`, writes the string leaf reached
by the entry names `names`: the key arrived at, with every `data/` deleted. -/
def writtenKey (p : String) (names : List String) : String :=
  strings.ReplaceAll (fieldKey p names) "data/" ""

/-- The loop body that GetValues runs on each secret of a key-value mount of the given
version: the body of the version 2 loop for "2", the body of the version 1 loop else. -/
def loopBody (version : String) (c : Client) (lib : Codec) (mount : String) (st : Fetch)
    (secret : String) : Run Fetch :=
  if version = "2" then readSecretV2 c lib mount st secret
  else readSecretV1 c lib mount st secret

/-- The payload that GetValues marshals and flattens for a secret read from a mount of the
given version: the inner `data` for version 2, the whole data else. -/
def payloadOf (version : String) (resp : Secret) : Value :=
  if version = "2" then index resp.Data "data" else .map resp.Data

/-- The secrets that the loop body of GetValues for one mount goes on to read, in the order
of the reads, each with the version of the mount, and `secretListPath` afterwards. The
control flow is that of `fetchMount` up to the loops over the secrets. -/
def mountItems (fuel : Nat) (c : Client) (lib : Codec) (secretListPath : List String)
    (mount : String) : Run (List (String × String) × List String) := do
  let body ← match (c.readRaw ("/sys/internal/ui/mounts/" ++ mount)).1 with
    | some body => pure body
    | none => runtimePanic "invalid memory address or nil pointer dereference"
  let secret ← match (lib.ParseSecret body).1 with
    | some secret => pure secret
    | none => runtimePanic "invalid memory address or nil pointer dereference"
  let engine := index secret.Data "type"
  if engine.eqString "kv" then
    let options := index secret.Data "options"
    let versionRaw := index (← assertMap options) "version"
    let version ← assertString versionRaw
    let key := ""
    if version = "" ∨ version = "1" then
      let r ← RecursiveListSecret fuel c mount key version secretListPath
      pure (r.1.map (fun secret => (version, secret)), r.2)
    else if version = "2" then
      let r ← RecursiveListSecret fuel c mount key version secretListPath
      pure (r.1.map (fun secret => (version, secret)), r.2)
    else pure ([], secretListPath)
  else pure ([], secretListPath)

/-- The secrets that GetValues goes on to read for the mounts in turn, each with the version
of the mount for which it is read; `secretListPath` is threaded from mount to mount. -/
def workItems (fuel : Nat) (c : Client) (lib : Codec) :
    List String → List String → Run (List (String × String))
  | [], _ => pure []
  | mount :: mounts, secretListPath => do
    let r ← mountItems fuel c lib secretListPath mount
    let rest ← workItems fuel c lib mounts r.2
    pure (r.1 ++ rest)

/-- The keys that processing the secret `p` with the payload `v` writes: `p` itself and the
key of each string field. -/
def blobKeys (p : String) (v : Value) (k : String) : Prop :=
  k = p ∨ ∃ f ∈ v.fields, k = writtenKey p f.1

/-- Reading the secret `it.2` for a mount of the version `it.1` leaves the keys of the secret
`p` with the payload `v` as they are. -/
def KeepsKeys (c : Client) (lib : Codec) (p : String) (v : Value) (it : String × String) :
    Prop :=
  ∀ (mount : String) (st st2 : Fetch), loopBody it.1 c lib mount st it.2 = .ok st2 →
    ∀ k, blobKeys p v k → st2.vars k = st.vars k

/-- The mapping holds the string fields of the payload `v` of the secret `p`: under the key
written for a field it holds the string of a field written under that key. -/
def FieldsHeld (p : String) (v : Value) (vars : Vars) : Prop :=
  ∀ f ∈ v.fields, ∃ g ∈ v.fields, writtenKey p g.1 = writtenKey p f.1 ∧
    vars (writtenKey p f.1) = some g.2

/-- Every key written for a string field of the payload `v` of the secret `p` differs from
`p`. -/
def KeysDiffer (p : String) (v : Value) : Prop :=
  ∀ f ∈ v.fields, writtenKey p f.1 ≠ p

/-- Each string field of the payload `v` of the secret `p` either lies below the top of the
payload, is reached by entry names that are non-empty, without `/`, not `.` and not `..`,
and has a key without `data/`; or `p` contains `data/` and the key written for the field
does not. -/
def GoodFields (p : String) (v : Value) : Prop :=
  ∀ f ∈ v.fields,
    ((∀ n ∈ f.1, GoodName n) ∧ f.1 ≠ [] ∧ ¬ strings.Contains (fieldKey p f.1) "data/") ∨
      (strings.Contains p "data/" ∧ ¬ strings.Contains (writtenKey p f.1) "data/")

/-- The invariant of the loops of GetValues for a secret `p` that is read for a mount of
the version `version` with the response `resp`, over the secrets `rest` still to be read
and the mapping: either `p` is still to be read and no other secret read after it touches
its keys, or the mapping holds the fields of `p` and, if the keys differ, its blob, and no
other secret still to be read touches its keys. -/
def Pending (c : Client) (lib : Codec) (version p : String) (resp : Secret)
    (rest : List (String × String)) (vars : Vars) : Prop :=
  (∃ pre post, rest = pre ++ (version, p) :: post ∧
    ∀ x ∈ post, x ≠ (version, p) → KeepsKeys c lib p (payloadOf version resp) x) ∨
  ((FieldsHeld p (payloadOf version resp) vars ∧
    (KeysDiffer p (payloadOf version resp) →
      vars p = some (lib.Marshal (payloadOf version resp)))) ∧
    ∀ x ∈ rest, x ≠ (version, p) → KeepsKeys c lib p (payloadOf version resp) x)

/-- A codec that parses the bodies `kv1` and `kv2` as the metadata of a key-value mount of
version "1" and "2", fails to parse any other body, and marshals the nil value to `null` and
every other value to `js`. -/
def mixedCodec : Codec where
  ParseSecret := fun body =>
    if body = "kv1" then (some (kvMount [("version", .str "1")]), none)
    else if body = "kv2" then (some (kvMount [("version", .str "2")]), none)
    else (none, some "invalid character")
  Marshal := fun v =>
    match v with
    | .null => "null"
    | _ => "js"

/-- A store with the version 1 mount `/a`, holding the secret `x` with the field `f = v`,
and the version 2 mount `/b`, holding the secret `z` with the string field `g = w` and the
number field `n = 7`. -/
def mixedStore : Client :=
  { emptyClient with
    list := fun p =>
      if p = "/a" then (some (keysSecret ["x"]), none)
      else if p = "/b/metadata/" then (some (keysSecret ["z"]), none)
      else (none, none)
    read := fun p =>
      if p = "/a/x" then (some ⟨[("f", .str "v")], none⟩, none)
      else if p = "/b/data/z" then
        (some ⟨[("data", .map [("g", .str "w"), ("n", .num "7")]),
          ("metadata", .map [("version", .num "1")])], none⟩, none)
      else (none, none)
    readRaw := fun p =>
      if p = "/sys/internal/ui/mounts//a" then (some "kv1", none)
      else if p = "/sys/internal/ui/mounts//b" then (some "kv2", none)
      else (none, some "no route") }

/-- A version 1 mount `/a` in which `x` is both a secret, with the field `y = w`, and a
directory, holding the secret `y` with the field `f = v`. -/
def nestedStore : Client :=
  { emptyClient with
    list := fun p =>
      if p = "/a" then (some (keysSecret ["x", "x/"]), none)
      else if p = "/a/x" then (some (keysSecret ["y"]), none)
      else (none, none)
    read := fun p =>
      if p = "/a/x" then (some ⟨[("y", .str "w")], none⟩, none)
      else if p = "/a/x/y" then (some ⟨[("f", .str "v")], none⟩, none)
      else (none, none)
    readRaw := fun p =>
      if p = "/sys/internal/ui/mounts//a" then (some "kv1", none) else (none, some "no route") }

/-! # Theorems -/

/-! ## Listing: the walk of a served tree -/

theorem heightOf_sub_le {n : String} {d : Dir} {es : List Entry} (h : Entry.sub n d ∈ es) :
    d.height ≤ heightOf es := by
  induction es with
  | nil => cases h
  | cons e rest ih =>
    rcases List.mem_cons.1 h with h1 | h2
    · subst h1; simp [heightOf]
    · cases e with
      | leaf m => simpa [heightOf] using ih h2
      | sub m d2 => simp only [heightOf]; exact le_trans (ih h2) (le_max_right _ _)

theorem HasSuffix_append_self (n s : String) : strings.HasSuffix (n ++ s) s = true := by
  simp [strings.HasSuffix]

theorem TrimSuffix_append_self (n s : String) : strings.TrimSuffix (n ++ s) s = n := by
  simp [strings.TrimSuffix, HasSuffix_append_self]

theorem TrimSuffix_of_not_HasSuffix {n s : String} (h : strings.HasSuffix n s = false) :
    strings.TrimSuffix n s = n := by
  simp [strings.TrimSuffix, h]

theorem assertString_str (s : String) : assertString (.str s) = .ok s := rfl
theorem assertSlice_list (l : List Value) : assertSlice (.list l) = .ok l := rfl
theorem Entry.key_leaf (n : String) : (Entry.leaf n).key = n := rfl
theorem Entry.key_sub (n : String) (d : Dir) : (Entry.sub n d).key = n ++ "/" := rfl
theorem run_ok_bind {α β : Type} (a : α) (f : α → Run β) : ((Except.ok a : Run α) >>= f) = f a := rfl

theorem walk_loop (vault : Client) (path version key : String) (fuel : Nat)
    (ih : ∀ (d : Dir) (key : String) (acc : List String),
      Serves vault path version key d → d.WellNamed → d.height ≤ fuel →
      RecursiveListSecret fuel vault path key version acc =
        .ok ((d.discovered path version key).reverse ++ acc,
          (d.discovered path version key).reverse ++ acc)) :
    ∀ (es : List Entry) (acc : List String),
      ServesAll vault path version key es → WellNamedAll es → heightOf es ≤ fuel →
      List.foldlM (fun secretListPath secret => do
          let s ← assertString secret
          if strings.HasSuffix s "/" = true then do
            let r ← RecursiveListSecret fuel vault path (key ++ "/" ++ strings.TrimSuffix s "/")
              version secretListPath
            pure r.2
          else
            pure ((leafPrefix path version ++ (key ++ "/" ++ strings.TrimSuffix s "/")) ::
              secretListPath))
        acc (es.map (fun e => Value.str e.key)) =
      (.ok ((discoveredOf path version key es).reverse ++ acc) : Run (List String)) := by
  intro es
  induction es with
  | nil => intro acc _ _ _; simp [discoveredOf]; rfl
  | cons e rest ihl =>
    intro acc hs hn hh
    cases e with
    | leaf n =>
      simp only [ServesAll] at hs
      simp only [WellNamedAll] at hn
      simp only [heightOf] at hh
      rw [List.map_cons, List.foldlM_cons, Entry.key_leaf, assertString_str, run_ok_bind,
        if_neg (by simp [hn.1]), TrimSuffix_of_not_HasSuffix hn.1]
      show ((pure _ : Run _) >>= _) = _
      rw [pure_bind, ihl _ hs hn.2 hh]
      simp [discoveredOf]
    | sub n d =>
      simp only [ServesAll] at hs
      simp only [WellNamedAll] at hn
      simp only [heightOf] at hh
      rw [List.map_cons, List.foldlM_cons, Entry.key_sub, assertString_str, run_ok_bind,
        if_pos (HasSuffix_append_self _ _), TrimSuffix_append_self,
        ih d _ acc hs.1 hn.1 (le_trans (le_max_left _ _) hh)]
      show ((pure _ : Run _) >>= _) = _
      rw [pure_bind, ihl _ hs.2 hn.2 (le_trans (le_max_right _ _) hh)]
      simp [discoveredOf]

theorem walk_eq (vault : Client) (path version : String) (hv : version = "1" ∨ version = "2") :
    ∀ (fuel : Nat) (d : Dir) (key : String) (acc : List String),
      Serves vault path version key d → d.WellNamed → d.height ≤ fuel →
      RecursiveListSecret fuel vault path key version acc =
        .ok ((d.discovered path version key).reverse ++ acc,
          (d.discovered path version key).reverse ++ acc) := by
  intro fuel
  induction fuel with
  | zero => 
    intro d key acc _ _ hh
    cases d <;> simp [Dir.height] at hh
  | succ fuel ih =>
    intro d key acc hs hn hh
    have hloop := walk_loop vault path version key fuel ih
    cases d with
    | unlisted =>
      simp only [Serves] at hs
      rcases hv with rfl | rfl
      · simp only [RecursiveListSecret]
        simp [Dir.discovered, degeneratePath]
        rfl
      · simp only [RecursiveListSecret]
        simp [Dir.discovered, degeneratePath]
        rfl        
    | listed es =>
      obtain ⟨⟨secret, hl, hk⟩, hall⟩ := hs
      simp only [Dir.WellNamed] at hn
      simp only [Dir.height] at hh
      have hloop' := hloop es acc hall hn (by omega)
      rcases hv with rfl | rfl
      · simp only [RecursiveListSecret, hl, hk]
        simp only [leafPrefix, if_true] at hloop'
        rw [if_pos trivial, assertSlice_list, run_ok_bind, hloop']
        rfl
      · simp only [RecursiveListSecret, hl, hk]
        have h21 : ¬ (("2" : String) = "1") := by decide
        simp only [leafPrefix, if_neg h21] at hloop'
        rw [if_neg h21, if_pos trivial, assertSlice_list, run_ok_bind, hloop']
        rfl

/-- Induction over a secret tree and the lists of children inside it. -/
theorem Dir.treeInduct {P : Dir → Prop} {Q : List Entry → Prop}
    (hu : P .unlisted) (hl : ∀ es, Q es → P (.listed es)) (hnil : Q [])
    (hleaf : ∀ n rest, Q rest → Q (.leaf n :: rest))
    (hsub : ∀ n d rest, P d → Q rest → Q (.sub n d :: rest)) : ∀ d, P d :=
  @Dir.rec P (fun e => ∀ rest, Q rest → Q (e :: rest)) Q hl hu
    (fun n rest h => hleaf n rest h) (fun n d hd rest h => hsub n d rest hd h) hnil
    (fun _ rest he hr => he rest hr)

theorem Dir.leafNames_ne_nil : ∀ d : Dir, ∀ ns ∈ d.leafNames, ns ≠ [] := by
  refine Dir.treeInduct (Q := fun es => ∀ ns ∈ leafNamesOf es, ns ≠ []) ?_ ?_ ?_ ?_ ?_
  · simp [Dir.leafNames]
  · intro es h; simpa [Dir.leafNames] using h
  · simp [leafNamesOf]
  · intro n rest h ns hns
    simp only [leafNamesOf, List.mem_cons] at hns
    rcases hns with rfl | hns
    · simp
    · exact h ns hns
  · intro n d rest hd h ns hns
    simp only [leafNamesOf, List.mem_append, List.mem_map] at hns
    rcases hns with ⟨ms, _, rfl⟩ | hns
    · simp
    · exact h ns hns

theorem joinNames_cons {n : String} {ns : List String} (h : ns ≠ []) :
    joinNames (n :: ns) = n ++ "/" ++ joinNames ns := by
  cases ns with
  | nil => exact absurd rfl h
  | cons m ms => rfl

theorem discovered_eq (mount version : String) : ∀ (d : Dir) (key : String), d.failures = 0 →
    d.discovered mount version key =
      d.leafNames.map (fun ns => leafPrefix mount version ++ (key ++ "/" ++ joinNames ns)) := by
  refine Dir.treeInduct (Q := fun es => ∀ key, failuresOf es = 0 → discoveredOf mount version key es =
      (leafNamesOf es).map (fun ns => leafPrefix mount version ++ (key ++ "/" ++ joinNames ns)))
    ?_ ?_ ?_ ?_ ?_
  · intro key h; simp [Dir.failures] at h
  · intro es h key hf
    simpa [Dir.discovered, Dir.leafNames] using h key (by simpa [Dir.failures] using hf)
  · intro key _; simp [discoveredOf, leafNamesOf]
  · intro n rest h key hf
    simp only [failuresOf] at hf
    simp [discoveredOf, leafNamesOf, h key hf, joinNames]
  · intro n d rest hd h key hf
    simp only [failuresOf] at hf
    have h1 : d.failures = 0 := by omega
    have h2 : failuresOf rest = 0 := by omega
    simp only [discoveredOf, leafNamesOf, hd _ h1, h key h2, List.map_append, List.map_map]
    congr 1
    apply List.map_congr_left
    intro ns hns
    simp only [Function.comp, joinNames_cons (Dir.leafNames_ne_nil d ns hns)]
    simp only [String.append_assoc]

theorem discovered_perm (mount version : String) : ∀ (d : Dir) (key : String),
    (d.discovered mount version key).Perm
      (d.leafNames.map (fun ns => leafPrefix mount version ++ (key ++ "/" ++ joinNames ns)) ++
        List.replicate d.failures (degeneratePath mount version)) := by
  refine Dir.treeInduct (Q := fun es => ∀ key, (discoveredOf mount version key es).Perm
      ((leafNamesOf es).map (fun ns => leafPrefix mount version ++ (key ++ "/" ++ joinNames ns)) ++
        List.replicate (failuresOf es) (degeneratePath mount version)))
    ?_ ?_ ?_ ?_ ?_
  · intro key; simp [Dir.discovered, Dir.leafNames, Dir.failures]
  · intro es h key
    simpa [Dir.discovered, Dir.leafNames, Dir.failures] using h key
  · intro key; simp [discoveredOf, leafNamesOf, failuresOf]
  · intro n rest h key
    simp only [discoveredOf, leafNamesOf, failuresOf, List.map_cons, List.cons_append, joinNames]
    exact (h key).cons _
  · intro n d rest hd h key
    simp only [discoveredOf, leafNamesOf, failuresOf, List.map_append, List.map_map,
      List.replicate_add]
    have hmap : List.map ((fun ns => leafPrefix mount version ++ (key ++ "/" ++ joinNames ns)) ∘
        fun ns => n :: ns) d.leafNames =
        d.leafNames.map (fun ns => leafPrefix mount version ++ (key ++ "/" ++ n ++ "/" ++ joinNames ns)) := by
      apply List.map_congr_left
      intro ns hns
      simp only [Function.comp, joinNames_cons (Dir.leafNames_ne_nil d ns hns)]
      simp only [String.append_assoc]
    rw [hmap]
    refine ((hd (key ++ "/" ++ n)).append (h key)).trans ?_
    simp only [List.append_assoc]
    refine List.Perm.append_left _ ?_
    simp only [← List.append_assoc]
    exact List.Perm.append_right _ List.perm_append_comm

theorem leafPrefix_root (mount version : String) (hv : version = "1" ∨ version = "2")
    (ns : List String) :
    leafPrefix mount version ++ ("" ++ "/" ++ joinNames ns) = secretPath mount version ns := by
  rcases hv with rfl | rfl
  · simp [leafPrefix, secretPath, String.append_assoc]
  · have h21 : ¬ (("2" : String) = "1") := by decide
    simp only [leafPrefix, secretPath, if_neg h21]
    apply String.ext
    simp

theorem exampleStore_serves : Serves exampleStore "/m" "2" "" exampleTree :=
  ⟨⟨keysSecret ["x", "y/"], rfl, rfl⟩, ⟨⟨keysSecret ["z"], rfl, rfl⟩, trivial⟩, trivial⟩

theorem exampleTree_wellNamed : exampleTree.WellNamed := by
  simp only [exampleTree, Dir.WellNamed, WellNamedAll]
  decide

theorem brokenStore_serves : Serves brokenStore "/m" "1" "" brokenTree := by
  refine ⟨⟨keysSecret ["x", "y/"], rfl, rfl⟩, ?_, trivial⟩
  intro secret h
  simp [ListSecret, brokenStore, emptyClient] at h

theorem brokenTree_wellNamed : brokenTree.WellNamed := by
  simp only [brokenTree, Dir.WellNamed, WellNamedAll]
  decide

/-- C1: for a secret tree all of whose directories the store answers with their children
(sub-directory names ending in `/`, leaf names not), version "1" or "2", an empty
accumulator and any recursion budget above the height of the tree, RecursiveListSecret
returns, and what it returns is a rearrangement of the list holding one path per leaf:
mount + "/" + the names joined by "/" for version 1, mount + "/data/" + the names for
version 2. -/
theorem RecursiveListSecret_lists_every_leaf (vault : Client) (mount version : String)
    (d : Dir) (fuel : Nat) (hv : version = "1" ∨ version = "2")
    (hs : Serves vault mount version "" d) (hn : d.WellNamed) (hc : d.failures = 0)
    (hf : d.height < fuel) :
    ∃ r, RecursiveListSecret fuel vault mount "" version [] = .ok (r, r) ∧
      r.Perm (d.leafNames.map (secretPath mount version)) := by
  refine ⟨_, by simpa using walk_eq vault mount version hv fuel d "" [] hs hn (Nat.le_of_lt hf), ?_⟩
  rw [discovered_eq mount version d "" hc]
  rw [List.map_congr_left (fun ns _ => leafPrefix_root mount version hv ns)]
  exact List.reverse_perm _

/-- C1 at the version 2 mount `/m` with the children `x` and `y/` (containing `z`): the
walk yields exactly `/m/data/x` and `/m/data/y/z`. -/
theorem RecursiveListSecret_lists_every_leaf_witness :
    Serves exampleStore "/m" "2" "" exampleTree ∧ exampleTree.WellNamed ∧
      exampleTree.failures = 0 ∧ exampleTree.height < 3 ∧
      ∃ r, RecursiveListSecret 3 exampleStore "/m" "" "2" [] = .ok (r, r) ∧
        r.Perm ["/m/data/x", "/m/data/y/z"] :=
  ⟨exampleStore_serves, exampleTree_wellNamed, by decide, by decide,
    RecursiveListSecret_lists_every_leaf exampleStore "/m" "2" exampleTree 3 (Or.inr rfl)
      exampleStore_serves exampleTree_wellNamed (by decide) (by decide)⟩

/-- C2, evaluated: the accumulator is the package-level variable and is never reset.
After a first top-level listing of the mount `/a`, the top-level listing of `/b` returns
the path `/a/x` of the earlier call besides its own `/b/y`, whereas from a clean slate it
returns `/b/y` alone. -/
theorem RecursiveListSecret_keeps_earlier_paths :
    RecursiveListSecret 2 twoMountStore "/a" "" "1" [] = .ok (["/a/x"], ["/a/x"]) ∧
    RecursiveListSecret 2 twoMountStore "/b" "" "1" ["/a/x"] =
      .ok (["/b/y", "/a/x"], ["/b/y", "/a/x"]) ∧
    RecursiveListSecret 2 twoMountStore "/b" "" "1" [] = .ok (["/b/y"], ["/b/y"]) :=
  ⟨rfl, rfl, rfl⟩

/-- C10 as stated fails: in the version 1 mount `/m` with the leaf `x` and the
sub-directory `y/` whose listing yields nothing, the walk returns the path `/m` for the
failed listing besides the leaf path `/m/x`; the result is not the leaf paths of the
remaining subtrees. -/
theorem RecursiveListSecret_failed_listing_counterexample :
    Serves brokenStore "/m" "1" "" brokenTree ∧
    RecursiveListSecret 3 brokenStore "/m" "" "1" [] = .ok (["/m", "/m/x"], ["/m", "/m/x"]) ∧
    brokenTree.leafNames.map (secretPath "/m" "1") = ["/m/x"] ∧
    ¬ (["/m", "/m/x"] : List String).Perm (brokenTree.leafNames.map (secretPath "/m" "1")) :=
  ⟨brokenStore_serves, rfl, rfl, by decide⟩

/-- C10, amended: for a secret tree in which the listing of some directories yields
nothing or an error, version "1" or "2", an empty accumulator and a recursion budget above
the height of the tree, the walk does not fail, and what it returns is a rearrangement of
one path per leaf of the listed directories together with one degenerate path per
directory whose listing failed (the mount path itself for version 1). -/
theorem RecursiveListSecret_failed_listing (vault : Client) (mount version : String) (d : Dir)
    (fuel : Nat) (hv : version = "1" ∨ version = "2") (hs : Serves vault mount version "" d)
    (hn : d.WellNamed) (hf : d.height < fuel) :
    ∃ r, RecursiveListSecret fuel vault mount "" version [] = .ok (r, r) ∧
      r.Perm (d.leafNames.map (secretPath mount version) ++
        List.replicate d.failures (degeneratePath mount version)) := by
  refine ⟨_, by simpa using walk_eq vault mount version hv fuel d "" [] hs hn (Nat.le_of_lt hf), ?_⟩
  refine (List.reverse_perm _).trans ((discovered_perm mount version d "").trans ?_)
  rw [List.map_congr_left (fun ns _ => leafPrefix_root mount version hv ns)]

/-- C10 amended, at the mount `/m` with the leaf `x` and the unlisted sub-directory `y/`:
the walk returns the leaf path `/m/x` and, once, the mount path `/m`. -/
theorem RecursiveListSecret_failed_listing_witness :
    Serves brokenStore "/m" "1" "" brokenTree ∧ brokenTree.WellNamed ∧ brokenTree.height < 3 ∧
      ∃ r, RecursiveListSecret 3 brokenStore "/m" "" "1" [] = .ok (r, r) ∧
        r.Perm ["/m/x", "/m"] :=
  ⟨brokenStore_serves, brokenTree_wellNamed, by decide,
    RecursiveListSecret_failed_listing brokenStore "/m" "1" brokenTree 3 (Or.inl rfl)
      brokenStore_serves brokenTree_wellNamed (by decide)⟩

/-! ## Mounts -/

/-- Invariant of the loop of `uniqMounts`: after the items `p`, `allKeys` holds the items
of `p` and the list is `p` without repeats, in the order of first occurrence. -/
theorem uniqMounts_loop (q : List String) : ∀ (p : List String)
    (st : (String → Option Bool) × List String),
    (∀ k, (st.1 k).isNone = false ↔ k ∈ p) → (∀ k, k ∈ st.2 ↔ k ∈ p) → st.2.Nodup →
    st.2.Pairwise (fun a b => p.indexOf a < p.indexOf b) → st.2.Sublist p →
    let r := (q.foldl (fun (st : (String → Option Bool) × List String) item =>
      if (st.1 item).isNone then
        (fun k => if k = item then some true else st.1 k, st.2 ++ [item])
      else st) st).2
    r.Nodup ∧ (∀ k, k ∈ r ↔ k ∈ p ++ q) ∧ r.Sublist (p ++ q) ∧
      r.Pairwise (fun a b => (p ++ q).indexOf a < (p ++ q).indexOf b) := by
  induction q with
  | nil =>
    intro p st _ hm hn hp hs
    simpa using ⟨hn, hm, hs, hp⟩
  | cons x q ih =>
    intro p st hk hm hn hp hs
    simp only [List.foldl_cons]
    have hpq : p ++ x :: q = (p ++ [x]) ++ q := by simp
    rw [hpq]
    by_cases hx : (st.1 x).isNone = true
    · have hxp : x ∉ p := fun h => by
        have := (hk x).2 h
        simp [hx] at this
      have hxl : x ∉ st.2 := fun h => hxp ((hm x).1 h)
      rw [if_pos hx]
      apply ih (p ++ [x])
      · intro k
        by_cases hkx : k = x
        · subst hkx; simp
        · simp [hkx, hk k]
      · intro k; simp [hm k]
      · exact List.nodup_append.2 ⟨hn, List.nodup_singleton x, by
          intro a ha hb
          have : a = x := by simpa using hb
          exact hxl (this ▸ ha)⟩
      · rw [List.pairwise_append]
        refine ⟨?_, List.pairwise_singleton _ _, ?_⟩
        · refine hp.imp_of_mem ?_
          intro a b ha hb hab
          rw [List.indexOf_append_of_mem ((hm a).1 ha), List.indexOf_append_of_mem ((hm b).1 hb)]
          exact hab
        · intro a ha b hb
          have hb' : b = x := by simpa using hb
          subst hb'
          rw [List.indexOf_append_of_mem ((hm a).1 ha), List.indexOf_append_of_not_mem hxp]
          have := List.indexOf_lt_length.2 ((hm a).1 ha)
          omega
      · exact List.Sublist.append hs (List.Sublist.refl _)
    · have hxp : x ∈ p := (hk x).1 (Bool.eq_false_iff.2 hx)
      rw [if_neg hx]
      apply ih (p ++ [x])
      · intro k
        rw [hk k]
        constructor
        · intro h; exact List.mem_append_left _ h
        · intro h
          rcases List.mem_append.1 h with h | h
          · exact h
          · have : k = x := by simpa using h
            exact this ▸ hxp
      · intro k
        rw [hm k]
        constructor
        · intro h; exact List.mem_append_left _ h
        · intro h
          rcases List.mem_append.1 h with h | h
          · exact h
          · have : k = x := by simpa using h
            exact this ▸ hxp
      · exact hn
      · refine hp.imp_of_mem ?_
        intro a b ha hb hab
        rw [List.indexOf_append_of_mem ((hm a).1 ha), List.indexOf_append_of_mem ((hm b).1 hb)]
        exact hab
      · exact hs.trans (List.sublist_append_left _ _)

/-- C6: for every list `xs`, `uniqMounts xs` has no duplicates, has exactly the elements of
`xs`, is `xs` with some items deleted, and lists its elements in the order of their first
occurrence in `xs`; `uniqMounts ["/a", "/b", "/a"] = ["/a", "/b"]`. -/
theorem uniqMounts_first_occurrences (xs : List String) :
    (uniqMounts xs).Nodup ∧ (∀ x, x ∈ uniqMounts xs ↔ x ∈ xs) ∧ (uniqMounts xs).Sublist xs ∧
      (uniqMounts xs).Pairwise (fun a b => xs.indexOf a < xs.indexOf b) ∧
      uniqMounts ["/a", "/b", "/a"] = ["/a", "/b"] := by
  have h := uniqMounts_loop xs [] (fun _ => none, []) (by simp) (by simp) List.nodup_nil
    List.Pairwise.nil (List.Sublist.refl _)
  simp only [List.nil_append] at h
  exact ⟨h.1, h.2.1, h.2.2.1, h.2.2.2, by decide⟩

/-! ## Authentication -/

theorem getParameter_missing {key : String} {params : String → Option String}
    (h : (params key).getD "" = "") :
    getParameter key params = .error (.str (key ++ " is missing from configuration")) := by
  simp [getParameter, h]

theorem getParameter_present {key : String} {params : String → Option String}
    (h : (params key).getD "" ≠ "") :
    getParameter key params = .ok ((params key).getD "") := by
  simp [getParameter, h]

/-- C4, amended: for every auth method with required parameters and every parameter mapping
in which one of its required keys is absent or empty, authenticate does not panic and
leaves the session as it was: no token is set and no read or write request is issued. It
returns the error naming the first missing key of the method, in the order of the method
table; except that for kubernetes this holds when the service-account token file can be
read, and when the read of the file fails authenticate returns the error of that read. -/
theorem authenticate_missing_parameter (c : Client) (tokenFile : Except Error String)
    (authType : String) (params : String → Option String) (s : Session)
    (hk : ∃ k ∈ requiredParams authType, (params k).getD "" = "") :
    ((authType = "kubernetes" → ∃ jwt, tokenFile = .ok jwt) →
      ∃ k, (requiredParams authType).find? (fun k => decide ((params k).getD "" = "")) = some k ∧
        authenticate c tokenFile authType params s =
          (.ok (some (k ++ " is missing from configuration")), s)) ∧
    (∀ e, authType = "kubernetes" → tokenFile = .error e →
      authenticate c tokenFile authType params s = (.ok (some e), s)) := by
  constructor
  · intro hf
    obtain ⟨k, hkr, hke⟩ := hk
    unfold requiredParams at hkr
    split_ifs at hkr with h1 h2 h3 h4 h5 h6
    · subst h1
      by_cases hr : (params "role-id").getD "" = ""
      · refine ⟨"role-id", by simp [requiredParams, hr], ?_⟩
        simp [authenticate, authenticateBody, loginSwitch, getParameter_missing hr, panicToError]
      · have hk2 : k = "secret-id" := by
          rcases List.mem_cons.1 hkr with h | h
          · exact absurd (h ▸ hke) hr
          · simpa using h
        subst hk2
        refine ⟨"secret-id", by simp [requiredParams, hr, hke], ?_⟩
        simp [authenticate, authenticateBody, loginSwitch, getParameter_missing hke,
          getParameter_present hr, panicToError]
    · subst h2
      by_cases hr : (params "app-id").getD "" = ""
      · refine ⟨"app-id", by simp [requiredParams, hr], ?_⟩
        simp [authenticate, authenticateBody, loginSwitch, getParameter_missing hr, panicToError]
      · have hk2 : k = "user-id" := by
          rcases List.mem_cons.1 hkr with h | h
          · exact absurd (h ▸ hke) hr
          · simpa using h
        subst hk2
        refine ⟨"user-id", by simp [requiredParams, hr, hke], ?_⟩
        simp [authenticate, authenticateBody, loginSwitch, getParameter_missing hke,
          getParameter_present hr, panicToError]
    · subst h3
      have hk1 : k = "token" := by simpa using hkr
      subst hk1
      refine ⟨"token", by simp [requiredParams, hke], ?_⟩
      simp [authenticate, authenticateBody, loginSwitch, getParameter_missing hke, panicToError]
    · subst h4
      have hk1 : k = "token" := by simpa using hkr
      subst hk1
      refine ⟨"token", by simp [requiredParams, hke], ?_⟩
      simp [authenticate, authenticateBody, loginSwitch, getParameter_missing hke, panicToError]
    · subst h5
      by_cases hr : (params "username").getD "" = ""
      · refine ⟨"username", by simp [requiredParams, hr], ?_⟩
        simp [authenticate, authenticateBody, loginSwitch, getParameter_missing hr, panicToError]
      · have hk2 : k = "password" := by
          rcases List.mem_cons.1 hkr with h | h
          · exact absurd (h ▸ hke) hr
          · simpa using h
        subst hk2
        refine ⟨"password", by simp [requiredParams, hr, hke], ?_⟩
        simp [authenticate, authenticateBody, loginSwitch, getParameter_missing hke,
          getParameter_present hr, panicToError]
    · subst h6
      have hk1 : k = "role-id" := by simpa using hkr
      subst hk1
      obtain ⟨jwt, hj⟩ := hf rfl
      subst hj
      refine ⟨"role-id", by simp [requiredParams, hke], ?_⟩
      simp [authenticate, authenticateBody, loginSwitch, getParameter_missing hke, panicToError]
    · simp at hkr
  · intro e h1 h2
    subst h1 h2
    simp [authenticate, authenticateBody, loginSwitch, panicToError]

/-- C4 as stated fails for kubernetes: with the required `role-id` missing and the
service-account token file unreadable, authenticate returns the error of the file read,
which does not name the missing key. -/
theorem authenticate_missing_parameter_counterexample :
    "role-id" ∈ requiredParams "kubernetes" ∧ (paramsOf [] "role-id").getD "" = "" ∧
    authenticate emptyClient (.error "open token: no such file or directory") "kubernetes"
        (paramsOf []) ⟨"", []⟩ =
      (.ok (some "open token: no such file or directory"), ⟨"", []⟩) ∧
    ¬ strings.Contains "open token: no such file or directory" "role-id" :=
  ⟨by decide, by decide, rfl, by decide⟩

/-- C4 amended, at the method app-role with `role-id` given and `secret-id` missing: the
error names `secret-id`. -/
theorem authenticate_missing_parameter_witness :
    ∃ k, (requiredParams "app-role").find?
        (fun k => decide ((paramsOf [("role-id", "r")] k).getD "" = "")) = some k ∧
      authenticate emptyClient (.ok "jwt") "app-role" (paramsOf [("role-id", "r")]) ⟨"", []⟩ =
        (.ok (some (k ++ " is missing from configuration")), ⟨"", []⟩) :=
  (authenticate_missing_parameter emptyClient (.ok "jwt") "app-role"
    (paramsOf [("role-id", "r")]) ⟨"", []⟩ ⟨"secret-id", by decide, by decide⟩).1
    (fun h => absurd h (by decide))

/-- C8 as stated fails when the client already holds a token: the login response is not
inspected. With the token `old` set before the call, a github login whose response carries
the client token `new` leaves the token `old`, and a login with no response at all returns
nil instead of "unable to authenticate". -/
theorem authenticate_login_response_counterexample :
    (authenticate loginStore (.ok "jwt") "github" (paramsOf [("token", "t")]) ⟨"old", []⟩).1 =
      .ok none ∧
    (authenticate loginStore (.ok "jwt") "github" (paramsOf [("token", "t")]) ⟨"old", []⟩).2.token =
      "old" ∧
    (loginStore.write "/auth/github/login" [("token", .str "t")]).1 = some ⟨[], some ⟨"new"⟩⟩ ∧
    (emptyClient.write "/auth/github/login" [("token", .str "t")]) = (none, none) ∧
    (authenticate emptyClient (.ok "jwt") "github" (paramsOf [("token", "t")]) ⟨"old", []⟩).1 =
      .ok none :=
  ⟨rfl, rfl, rfl, rfl, rfl⟩

/-! ## Fetching values -/

/-- C5, evaluated: with the prefixes `/a/x` and `/b/y`, where the mount `/a` is a healthy
version 1 mount, GetValues does not return when the probe of `/b` fails: it panics on the
nil response when the raw read returns an error without a response, and on the nil secret
when the body of the response cannot be parsed. Without the prefix `/b/y` the same store
yields the keys of `/a`. -/
theorem GetValues_probe_failure_panics :
    (GetValues 5 (kvStore (some "kv1", none) (none, some "connection refused")) exampleCodec
        ["/a/x", "/b/y"] []).map (fun f => f.vars "/a/x/f") =
      runtimePanic "invalid memory address or nil pointer dereference" ∧
    exampleCodec.ParseSecret "<html>" = (none, some "invalid character") ∧
    (GetValues 5 (kvStore (some "kv1", none) (some "<html>", none)) exampleCodec
        ["/a/x", "/b/y"] []).map (fun f => f.vars "/a/x/f") =
      runtimePanic "invalid memory address or nil pointer dereference" ∧
    (GetValues 5 (kvStore (some "kv1", none) (none, some "connection refused")) exampleCodec
        ["/a/x"] []).map (fun f => f.vars "/a/x/f") = .ok (some "v") :=
  ⟨rfl, rfl, rfl, rfl⟩

/-- C9, evaluated: for the key-value mount `/a` holding the secret `x` with the field
`f = v`, GetValues returns the field when the mount reports the version "1", returns a
mapping without any key when it reports the empty version (the listing is asked for the
version "" and lists nothing), and panics on the type assertion when the version is
absent. -/
theorem GetValues_empty_version_lists_nothing :
    (GetValues 5 (kvStore (some "kv1", none) (none, none)) exampleCodec ["/a/x"] []).map
        (fun f => f.vars "/a/x/f") = .ok (some "v") ∧
    (∀ key, (GetValues 5 (kvStore (some "kv-empty", none) (none, none)) exampleCodec ["/a/x"]
        []).map (fun f => f.vars key) = .ok none) ∧
    (GetValues 5 (kvStore (some "kv-absent", none) (none, none)) exampleCodec ["/a/x"] []).map
        (fun f => f.vars "/a/x/f") =
      runtimePanic "interface conversion: value is not a string" :=
  ⟨rfl, fun _ => rfl, rfl⟩

/-! ## Flattening -/

/-- C7, evaluated: flatten deletes every occurrence of the text `data/` from the key, also
inside a longer path segment. The value of the key `/secret/data/mydata/x` is written under
`/secret/myx`, and nothing is written under `/secret/mydata/x`. -/
theorem flatten_strips_data_inside_segment :
    flatten "/secret/data/mydata/x" (.str "v") "/secret" (fun _ => none) "/secret/myx" =
      some "v" ∧
    flatten "/secret/data/mydata/x" (.str "v") "/secret" (fun _ => none) "/secret/mydata/x" =
      none ∧
    strings.ReplaceAll "/secret/data/mydata/x" "data/" "" = "/secret/myx" :=
  ⟨by decide, by decide, by decide⟩

/-! ## Path cleaning and joining -/

namespace path

theorem splitOn_append_sep (a b : List Char) :
    (a ++ '/' :: b).splitOn '/' = a.splitOn '/' ++ b.splitOn '/' := by
  simp only [List.splitOn]
  induction a with
  | nil => simp
  | cons c a ih =>
    simp only [List.cons_append, List.splitOnP_cons, ih]
    split
    · simp
    · have hne := List.splitOnP_ne_nil (· == '/') a
      cases h : List.splitOnP (· == '/') a with
      | nil => exact absurd h hne
      | cons x xs => simp [List.modifyHead]

theorem splitOn_no_sep {e : List Char} (h : '/' ∉ e) : e.splitOn '/' = [e] := by
  simp only [List.splitOn]
  apply List.splitOnP_eq_single
  intro x hx hp
  have : x = '/' := by simpa using hp
  exact h (this ▸ hx)

theorem no_sep_of_mem_splitOn : ∀ (p : List Char), ∀ e ∈ p.splitOn '/', '/' ∉ e := by
  intro p
  simp only [List.splitOn]
  induction p with
  | nil => simp
  | cons c p ih =>
    intro e he
    rw [List.splitOnP_cons] at he
    split at he
    · rcases List.mem_cons.1 he with h | h
      · subst h; simp
      · exact ih e h
    · rename_i hc
      have hne := List.splitOnP_ne_nil (· == '/') p
      cases h : List.splitOnP (· == '/') p with
      | nil => exact absurd h hne
      | cons x xs =>
        rw [h] at he ih
        simp only [List.modifyHead, List.mem_cons] at he
        rcases he with h1 | h1
        · subst h1
          intro hmem
          rcases List.mem_cons.1 hmem with h2 | h2
          · exact hc (by simp [← h2])
          · exact ih x (List.mem_cons_self _ _) h2
        · exact ih e (List.mem_cons_of_mem _ h1)

theorem cleanStep_real (r : Bool) (out : List (List Char)) {e : List Char} (h : Real e) :
    cleanStep r out e = out ++ [e] := by
  obtain ⟨h1, h2, h3, _⟩ := h
  simp [cleanStep, h1, h2, h3]

theorem foldl_cleanStep_real (r : Bool) : ∀ (es out : List (List Char)), (∀ e ∈ es, Real e) →
    es.foldl (cleanStep r) out = out ++ es := by
  intro es
  induction es with
  | nil => intro out _; simp
  | cons e es ih =>
    intro out h
    rw [List.foldl_cons, cleanStep_real r out (h e (List.mem_cons_self _ _)),
      ih _ (fun x hx => h x (List.mem_cons_of_mem _ hx))]
    simp

theorem foldl_cleanStep_dotdot : ∀ (m j : Nat),
    (List.replicate m ['.', '.']).foldl (cleanStep false) (List.replicate j ['.', '.']) =
      List.replicate (j + m) ['.', '.'] := by
  intro m
  induction m with
  | zero => intro j; simp
  | succ m ih =>
    intro j
    have hstep : cleanStep false (List.replicate j ['.', '.']) ['.', '.'] =
        List.replicate (j + 1) ['.', '.'] := by
      cases j with
      | zero => simp [cleanStep]
      | succ j =>
        have : (List.replicate (j + 1) ['.', '.']).getLast? = some ['.', '.'] := by
          rw [List.getLast?_eq_getLast _ (by simp)]
          simp
        simp only [cleanStep, this]
        simp [List.replicate_succ']
    rw [List.replicate_succ, List.foldl_cons, hstep, ih]
    congr 1
    omega

theorem foldl_cleanStep_canon {r : Bool} {st : List (List Char)} (h : Canon r st) :
    st.foldl (cleanStep r) [] = st := by
  obtain ⟨m, reals, rfl, hm, hr⟩ := h
  rw [List.foldl_append]
  cases r with
  | true =>
    have := hm rfl
    subst this
    simpa using foldl_cleanStep_real true reals [] hr
  | false =>
    have := foldl_cleanStep_dotdot m 0
    simp only [List.replicate_zero, Nat.zero_add] at this
    rw [this, foldl_cleanStep_real false reals _ hr]


theorem canon_nil (r : Bool) : Canon r [] :=
  ⟨0, [], by simp, fun _ => rfl, by simp⟩

theorem canon_snoc_real {r : Bool} {st : List (List Char)} (h : Canon r st) {e : List Char}
    (he : Real e) : Canon r (st ++ [e]) := by
  obtain ⟨m, reals, rfl, hm, hr⟩ := h
  refine ⟨m, reals ++ [e], by simp, hm, ?_⟩
  intro x hx
  rcases List.mem_append.1 hx with h | h
  · exact hr x h
  · have : x = e := by simpa using h
    exact this ▸ he

theorem canon_append_real {r : Bool} {st : List (List Char)} (h : Canon r st) :
    ∀ (es : List (List Char)), (∀ e ∈ es, Real e) → Canon r (st ++ es) := by
  obtain ⟨m, reals, rfl, hm, hr⟩ := h
  intro es hes
  refine ⟨m, reals ++ es, by simp, hm, ?_⟩
  intro x hx
  rcases List.mem_append.1 hx with h | h
  · exact hr x h
  · exact hes x h

theorem canon_cleanStep {r : Bool} {st : List (List Char)} (h : Canon r st) {e : List Char}
    (he : '/' ∉ e) : Canon r (cleanStep r st e) := by
  unfold cleanStep
  by_cases h1 : e = [] ∨ e = ['.']
  · rw [if_pos h1]; exact h
  · rw [if_neg h1]
    by_cases h2 : e = ['.', '.']
    · rw [if_pos h2]
      subst h2
      obtain ⟨m, reals, rfl, hm, hr⟩ := h
      rcases List.eq_nil_or_concat reals with hnil | ⟨init, last, hcat⟩
      · subst hnil
        simp only [List.append_nil]
        cases m with
        | zero =>
          simp only [List.replicate_zero, List.getLast?_nil]
          cases r with
          | true => simpa using canon_nil true
          | false => exact ⟨1, [], by simp, by simp, by simp⟩
        | succ m =>
          have hl : (List.replicate (m + 1) ['.', '.']).getLast? = some ['.', '.'] := by
            rw [List.getLast?_eq_getLast _ (by simp)]
            simp
          simp only [hl, if_true]
          refine ⟨m + 2, [], ?_, ?_, by simp⟩
          · simp [List.replicate_succ' (m + 1)]
          · intro hr; exact absurd (hm hr) (by simp)
      · rw [List.concat_eq_append] at hcat
        subst hcat
        have hlast : Real last := hr last (by simp)
        have hl : (List.replicate m ['.', '.'] ++ (init ++ [last])).getLast? = some last := by
          rw [← List.append_assoc, List.getLast?_append]
          rfl
        simp only [hl, if_neg hlast.2.2.1]
        refine ⟨m, init, ?_, hm, fun x hx => hr x (by simp [hx])⟩
        rw [← List.append_assoc, List.dropLast_concat]
    · rw [if_neg h2]
      refine canon_snoc_real h ⟨?_, ?_, h2, he⟩
      · exact fun h0 => h1 (Or.inl h0)
      · exact fun h0 => h1 (Or.inr h0)

theorem canon_foldl_cleanStep {r : Bool} : ∀ (es st : List (List Char)), Canon r st →
    (∀ e ∈ es, '/' ∉ e) → Canon r (es.foldl (cleanStep r) st) := by
  intro es
  induction es with
  | nil => intro st h _; simpa using h
  | cons e es ih =>
    intro st h hes
    rw [List.foldl_cons]
    exact ih _ (canon_cleanStep h (hes e (List.mem_cons_self _ _)))
      (fun x hx => hes x (List.mem_cons_of_mem _ hx))

theorem canon_cleanElems (p : List Char) : Canon (p.head? = some '/') (cleanElems p) :=
  canon_foldl_cleanStep _ _ (canon_nil _) (no_sep_of_mem_splitOn p)


theorem canon_no_sep {r : Bool} {st : List (List Char)} (h : Canon r st) :
    ∀ e ∈ st, e ≠ [] ∧ '/' ∉ e := by
  obtain ⟨m, reals, rfl, _, hr⟩ := h
  intro e he
  rcases List.mem_append.1 he with h | h
  · have := List.eq_of_mem_replicate h
    subst this
    exact ⟨by simp, by decide⟩
  · exact ⟨(hr e h).1, (hr e h).2.2.2⟩

theorem head?_intercalate {e : List Char} {es : List (List Char)} (he : e ≠ []) :
    (List.intercalate ['/'] (e :: es)).head? = e.head? := by
  cases e with
  | nil => exact absurd rfl he
  | cons c cs =>
    cases es <;> simp [List.intercalate, List.intersperse]

theorem splitOn_sep_cons (b : List Char) : ('/' :: b).splitOn '/' = [] :: b.splitOn '/' := by
  simp [List.splitOn]

/-- The cleaned form of a path is a fixed point: it is not empty, it is rooted when the
path is, and cleaning it keeps its elements. -/
theorem render_canon {r : Bool} {st : List (List Char)} (h : Canon r st) :
    render r st ≠ [] ∧ (decide ((render r st).head? = some '/')) = r ∧
      cleanElems (render r st) = st := by
  have hns := canon_no_sep h
  cases r with
  | true =>
    have hr : render true st = '/' :: List.intercalate ['/'] st := by simp [render]
    refine ⟨by simp [hr], by simp [hr], ?_⟩
    unfold cleanElems
    rw [hr, splitOn_sep_cons]
    simp only [List.head?_cons, decide_True, List.foldl_cons]
    cases st with
    | nil => simp [List.intercalate, cleanStep]
    | cons e es =>
      rw [List.splitOn_intercalate _ '/' (fun l hl => (hns l hl).2) (by simp)]
      have : cleanStep true [] [] = [] := by simp [cleanStep]
      rw [this]
      exact foldl_cleanStep_canon h
  | false =>
    cases st with
    | nil => refine ⟨by simp [render], by simp [render], ?_⟩; simp [render, cleanElems, List.splitOn, cleanStep]
    | cons e es =>
      have hr : render false (e :: es) = List.intercalate ['/'] (e :: es) := by simp [render]
      have he := hns e (List.mem_cons_self _ _)
      have hhead : (List.intercalate ['/'] (e :: es)).head? ≠ some '/' := by
        rw [head?_intercalate he.1]
        intro hh
        exact he.2 (List.mem_of_mem_head? hh)
      have hne : List.intercalate ['/'] (e :: es) ≠ [] := by
        intro h0
        rw [h0] at hhead
        have := @head?_intercalate e es he.1
        rw [h0] at this
        cases e with
        | nil => exact he.1 rfl
        | cons c cs => simp at this
      refine ⟨by rw [hr]; exact hne, by rw [hr]; simpa using hhead, ?_⟩
      unfold cleanElems
      rw [hr, List.splitOn_intercalate _ '/' (fun l hl => (hns l hl).2) (by simp)]
      have : decide ((List.intercalate ['/'] (e :: es)).head? = some '/') = false := by
        simpa using hhead
      rw [this]
      exact foldl_cleanStep_canon h


theorem cleanElems_append_sep {a : List Char} (b : List Char) (ha : a ≠ []) :
    cleanElems (a ++ '/' :: b) =
      (b.splitOn '/').foldl (cleanStep (a.head? = some '/')) (cleanElems a) := by
  unfold cleanElems
  rw [splitOn_append_sep, List.foldl_append]
  cases a with
  | nil => exact absurd rfl ha
  | cons c cs => rfl

theorem joinBuf_of_ne_nil : ∀ (ns : List String) (buf : List Char), buf ≠ [] →
    joinBuf buf ns = buf ++ ns.flatMap (fun n => '/' :: n.data) := by
  intro ns
  induction ns with
  | nil => intro buf _; simp [joinBuf]
  | cons n ns ih =>
    intro buf hb
    rw [joinBuf, if_pos (Or.inl hb), if_pos hb, ih _ (by simp)]
    simp

theorem splitOn_names (n : List Char) (hn : '/' ∉ n) : ∀ (ns : List String),
    (∀ m ∈ ns, '/' ∉ m.data) →
    (n ++ ns.flatMap (fun m => '/' :: m.data)).splitOn '/' = n :: ns.map String.data := by
  intro ns
  induction ns generalizing n with
  | nil => intro _; simpa using splitOn_no_sep hn
  | cons m ns ih =>
    intro h
    rw [List.flatMap_cons, List.cons_append, splitOn_append_sep, splitOn_no_sep hn,
      ih m.data (h m (List.mem_cons_self _ _)) (fun x hx => h x (List.mem_cons_of_mem _ hx))]
    simp

end path

theorem GoodName.real {n : String} (h : GoodName n) : path.Real n.data := by
  obtain ⟨h1, h2, h3, h4⟩ := h
  refine ⟨?_, ?_, ?_, h2⟩
  · intro h0; exact h1 (String.ext h0)
  · intro h0; exact h3 (String.ext h0)
  · intro h0; exact h4 (String.ext h0)

/-- The key that `flatten` forms for an entry of a mapping found under `key`. -/
theorem Join_entry {key n : String} (hk : key.data ≠ []) (hn : GoodName n) :
    (path.Join [key, "/", n]).data =
      path.render (key.data.head? = some '/') (path.cleanElems key.data ++ [n.data]) := by
  have hsum : ¬ ((([key, "/", n] : List String).map (fun e => e.data.length)).sum = 0) := by
    have : 0 < key.data.length := List.length_pos.2 hk
    simp only [List.map_cons, List.sum_cons]
    omega
  have hbuf : path.joinBuf [] [key, "/", n] = key.data ++ '/' :: ('/' :: '/' :: n.data) := by
    rw [path.joinBuf, if_pos (Or.inr hk), if_neg (by simp), List.nil_append,
      path.joinBuf_of_ne_nil _ _ hk]
    simp
  have hne : key.data ++ '/' :: ('/' :: '/' :: n.data) ≠ [] := by simp [hk]
  have hhead : (key.data ++ '/' :: ('/' :: '/' :: n.data)).head? = key.data.head? := by
    cases hd : key.data with
    | nil => exact absurd hd hk
    | cons c cs => rfl
  rw [path.Join, if_neg hsum, path.Clean]
  simp only [hbuf, if_neg hne, hhead]
  rw [path.cleanElems_append_sep _ hk, path.splitOn_sep_cons, path.splitOn_sep_cons,
    path.splitOn_no_sep hn.2.1]
  have hskip : ∀ r out, path.cleanStep r out [] = out := by intro r out; simp [path.cleanStep]
  simp only [List.foldl_cons, List.foldl_nil, hskip, path.cleanStep_real _ _ hn.real]

/-- The key that `path.Join` forms from a non-empty key and entry names. -/
theorem Join_names {k : String} (ns : List String) (hk : k.data ≠ [])
    (hn : ∀ n ∈ ns, GoodName n) :
    (path.Join (k :: ns)).data =
      path.render (k.data.head? = some '/') (path.cleanElems k.data ++ ns.map String.data) := by
  have hsum : ¬ (((k :: ns).map (fun e => e.data.length)).sum = 0) := by
    have : 0 < k.data.length := List.length_pos.2 hk
    simp only [List.map_cons, List.sum_cons]
    omega
  have hbuf : path.joinBuf [] (k :: ns) = k.data ++ ns.flatMap (fun n => '/' :: n.data) := by
    rw [path.joinBuf, if_pos (Or.inr hk), if_neg (by simp), List.nil_append,
      path.joinBuf_of_ne_nil _ _ hk]
  have hne : k.data ++ ns.flatMap (fun n => '/' :: n.data) ≠ [] := by simp [hk]
  have hhead : (k.data ++ ns.flatMap (fun n => '/' :: n.data)).head? = k.data.head? := by
    cases hd : k.data with
    | nil => exact absurd hd hk
    | cons c cs => rfl
  rw [path.Join, if_neg hsum, path.Clean]
  simp only [hbuf, if_neg hne, hhead]
  cases ns with
  | nil => simp
  | cons n ns =>
    rw [List.flatMap_cons, List.cons_append, path.cleanElems_append_sep _ hk,
      path.splitOn_names n.data (hn n (List.mem_cons_self _ _)).2.1 ns
        (fun m hm => (hn m (List.mem_cons_of_mem _ hm)).2.1),
      path.foldl_cleanStep_real]
    · simp
    · intro e he
      simp only [List.mem_cons, List.mem_map] at he
      rcases he with rfl | ⟨m, hm, rfl⟩
      · exact (hn n (List.mem_cons_self _ _)).real
      · exact (hn m (List.mem_cons_of_mem _ hm)).real

/-! ## Flattening: one write per string leaf -/


theorem replaceScan_of_not_infix (old new : List Char) : ∀ (s : List Char), ¬ old <:+: s →
    strings.replaceScan old new 0 s = s := by
  intro s
  induction s with
  | nil => intro _; rfl
  | cons c cs ih =>
    intro h
    have hp : old.isPrefixOf (c :: cs) = false := by
      apply Bool.eq_false_iff.2
      intro hp
      exact h (List.isPrefixOf_iff_prefix.1 hp).isInfix
    rw [strings.replaceScan, hp]
    simp only [Bool.false_eq_true, if_false]
    rw [ih (fun hi => h (hi.trans (List.suffix_cons c cs).isInfix))]

theorem ReplaceAll_of_not_Contains {s : String} (h : ¬ strings.Contains s "data/") :
    strings.ReplaceAll s "data/" "" = s := by
  have hne : ("data/" : String).data ≠ [] := by decide
  rw [strings.ReplaceAll, if_neg hne, replaceScan_of_not_infix _ _ _ h]

/-- Induction over a value and the lists of entries of the mappings inside it. -/
theorem Value.valueInduct {P : Value → Prop} {Q : List (String × Value) → Prop}
    (hstr : ∀ s, P (.str s)) (hmap : ∀ es, Q es → P (.map es)) (hnum : ∀ r, P (.num r))
    (hbool : ∀ b, P (.bool b)) (hlist : ∀ items, P (.list items)) (hnull : P .null)
    (hnil : Q []) (hcons : ∀ n v rest, P v → Q rest → Q ((n, v) :: rest)) : ∀ v, P v :=
  @Value.rec P Q (fun _ => True) (fun e => P e.2) hstr hmap hnum hbool (fun items _ => hlist items)
    hnull hnil (fun e rest he hr => hcons e.1 e.2 rest he hr) trivial (fun _ _ _ _ => trivial)
    (fun _ _ h => h)

/-- On a plain value none of whose keys contains `data/`, `flatten` performs one write per
string leaf, in the order of the walk, under the cleaned current key followed by the entry
names of the leaf. -/
theorem flatten_eq_foldl : ∀ (v : Value) (cur : String) (r : Bool) (st : List (List Char))
    (mount : String) (vars : Vars), path.Canon r st → cur.data ≠ [] →
    decide (cur.data.head? = some '/') = r → path.cleanElems cur.data = st →
    (∀ s, v = .str s → cur.data = path.render r st) → v.Plain →
    (∀ f ∈ v.fields, ¬ strings.Contains (keyAt r st f.1) "data/") →
    flatten cur v mount vars = v.fields.foldl (fun vars f => vars.set (keyAt r st f.1) f.2) vars := by
  refine Value.valueInduct (Q := fun es => ∀ (cur : String) (r : Bool) (st : List (List Char))
    (mount : String) (vars : Vars), path.Canon r st → cur.data ≠ [] →
    decide (cur.data.head? = some '/') = r → path.cleanElems cur.data = st → PlainAll es →
    (∀ f ∈ fieldsOf es, ¬ strings.Contains (keyAt r st f.1) "data/") →
    flattenEntries cur es mount vars =
      (fieldsOf es).foldl (fun vars f => vars.set (keyAt r st f.1) f.2) vars)
    ?_ ?_ ?_ ?_ ?_ ?_ ?_ ?_
  · intro s cur r st mount vars _ _ _ _ hcur _ hd
    have hk : keyAt r st [] = cur := by
      apply String.ext
      simp [keyAt, hcur s rfl]
    have hd' := hd ([], s) (by simp [Value.fields])
    simp only [hk] at hd'
    simp [flatten, Value.fields, hk, ReplaceAll_of_not_Contains hd']
  · intro es hq cur r st mount vars hc h1 h2 h3 _ hp hd
    simpa [flatten, Value.fields] using hq cur r st mount vars hc h1 h2 h3
      (by simpa [Value.Plain] using hp) (by simpa [Value.fields] using hd)
  · intro _ cur r st mount vars _ _ _ _ _ hp; simp [Value.Plain] at hp
  · intro _ cur r st mount vars _ _ _ _ _ hp; simp [Value.Plain] at hp
  · intro _ cur r st mount vars _ _ _ _ _ hp; simp [Value.Plain] at hp
  · intro cur r st mount vars _ _ _ _ _ hp; simp [Value.Plain] at hp
  · intro cur r st mount vars _ _ _ _ _ _; simp [flattenEntries, fieldsOf]
  · intro n v rest hv hrest cur r st mount vars hc hne hr hst hp hd
    simp only [PlainAll] at hp
    obtain ⟨hgood, _, hpv, hprest⟩ := hp
    have hj := Join_entry hne hgood
    rw [hr, hst] at hj
    have hc' : path.Canon r (st ++ [n.data]) := path.canon_snoc_real hc hgood.real
    obtain ⟨h1, h2, h3⟩ := path.render_canon hc'
    rw [← hj] at h1 h2 h3
    have hkey : ∀ ns, keyAt r (st ++ [n.data]) ns = keyAt r st (n :: ns) := by
      intro ns; simp [keyAt]
    simp only [flattenEntries, fieldsOf, List.foldl_append, List.foldl_map]
    rw [hv _ r (st ++ [n.data]) mount vars hc' h1 h2 h3 (fun _ _ => hj) hpv ?_,
      hrest cur r st mount _ hc hne hr hst hprest ?_]
    · simp only [hkey]
    · intro f hf
      exact hd f (by simp [fieldsOf, hf])
    · intro f hf
      rw [hkey]
      exact hd (n :: f.1, f.2) (by
        simp only [fieldsOf, List.mem_append, List.mem_map]
        exact Or.inl ⟨f, hf, rfl⟩)

theorem fields_good : ∀ (v : Value), v.Plain → ∀ f ∈ v.fields, ∀ n ∈ f.1, GoodName n := by
  refine Value.valueInduct (Q := fun es => PlainAll es → ∀ f ∈ fieldsOf es, ∀ n ∈ f.1, GoodName n)
    ?_ ?_ ?_ ?_ ?_ ?_ ?_ ?_
  · intro s _ f hf n hn
    simp only [Value.fields, List.mem_singleton] at hf
    subst hf
    simp at hn
  · intro es hq hp f hf
    exact hq (by simpa [Value.Plain] using hp) f (by simpa [Value.fields] using hf)
  · intro _ hp; simp [Value.Plain] at hp
  · intro _ hp; simp [Value.Plain] at hp
  · intro _ hp; simp [Value.Plain] at hp
  · intro hp; simp [Value.Plain] at hp
  · intro _ f hf; simp [fieldsOf] at hf
  · intro n v rest hv hrest hp f hf m hm
    simp only [PlainAll] at hp
    obtain ⟨hgood, _, hpv, hprest⟩ := hp
    simp only [fieldsOf, List.mem_append, List.mem_map] at hf
    rcases hf with ⟨g, hg, rfl⟩ | hf
    · rcases List.mem_cons.1 hm with h | h
      · exact h ▸ hgood
      · exact hv hpv g hg m h
    · exact hrest hprest f hf m hm

theorem fields_nodup : ∀ (v : Value), v.Plain → (v.fields.map Prod.fst).Nodup := by
  refine Value.valueInduct (Q := fun es => PlainAll es → ((fieldsOf es).map Prod.fst).Nodup ∧
    ∀ f ∈ fieldsOf es, ∃ e ∈ es, f.1.head? = some e.1) ?_ ?_ ?_ ?_ ?_ ?_ ?_ ?_
  · intro s _; simp [Value.fields]
  · intro es hq hp
    simpa [Value.fields] using (hq (by simpa [Value.Plain] using hp)).1
  · intro _ hp; simp [Value.Plain] at hp
  · intro _ hp; simp [Value.Plain] at hp
  · intro _ hp; simp [Value.Plain] at hp
  · intro hp; simp [Value.Plain] at hp
  · intro _; simp [fieldsOf]
  · intro n v rest hv hrest hp
    simp only [PlainAll] at hp
    obtain ⟨_, hdiff, hpv, hprest⟩ := hp
    obtain ⟨hr1, hr2⟩ := hrest hprest
    constructor
    · simp only [fieldsOf, List.map_append, List.map_map]
      rw [List.nodup_append]
      refine ⟨?_, hr1, ?_⟩
      · have : (List.map (Prod.fst ∘ fun f : List String × String => (n :: f.1, f.2)) v.fields) =
            (v.fields.map Prod.fst).map (fun ns => n :: ns) := by
          simp [List.map_map, Function.comp]
        rw [this]
        exact (hv hpv).map (fun a b h => by simpa using h)
      · intro ns h1 h2
        simp only [List.mem_map, Function.comp] at h1 h2
        obtain ⟨g, _, rfl⟩ := h1
        obtain ⟨f, hf, hfe⟩ := h2
        obtain ⟨e, he, hhead⟩ := hr2 f hf
        rw [hfe] at hhead
        simp only [List.head?_cons, Option.some.injEq] at hhead
        exact hdiff e he hhead.symm
    · intro f hf
      simp only [fieldsOf, List.mem_append, List.mem_map] at hf
      rcases hf with ⟨g, _, rfl⟩ | hf
      · exact ⟨(n, v), List.mem_cons_self _ _, rfl⟩
      · obtain ⟨e, he, hh⟩ := hr2 f hf
        exact ⟨e, List.mem_cons_of_mem _ he, hh⟩

theorem foldl_set_of_not_mem {α : Type} (key : α → String) (val : α → String) (x : String) :
    ∀ (fs : List α) (vars : Vars), (∀ f ∈ fs, key f ≠ x) →
    (fs.foldl (fun vars f => vars.set (key f) (val f)) vars) x = vars x := by
  intro fs
  induction fs with
  | nil => intro vars _; rfl
  | cons f fs ih =>
    intro vars h
    rw [List.foldl_cons, ih _ (fun g hg => h g (List.mem_cons_of_mem _ hg))]
    have := h f (List.mem_cons_self _ _)
    simp [Vars.set, Ne.symm this]

theorem foldl_set_of_mem {α : Type} (key : α → String) (val : α → String) :
    ∀ (fs : List α) (vars : Vars), (fs.map key).Nodup → ∀ f ∈ fs,
    (fs.foldl (fun vars f => vars.set (key f) (val f)) vars) (key f) = some (val f) := by
  intro fs
  induction fs with
  | nil => intro vars _ f hf; cases hf
  | cons g fs ih =>
    intro vars hnd f hf
    rw [List.map_cons, List.nodup_cons] at hnd
    rw [List.foldl_cons]
    rcases List.mem_cons.1 hf with h | h
    · subst h
      rw [foldl_set_of_not_mem key val (key f) fs _ (fun g hg hk => hnd.1 (by
        rw [← hk]; exact List.mem_map_of_mem key hg))]
      simp [Vars.set]
    · exact ih _ hnd.2 f h

theorem Join_injective {k : String} (hk : k.data ≠ []) {ns ms : List String}
    (hn : ∀ n ∈ ns, GoodName n) (hm : ∀ n ∈ ms, GoodName n)
    (h : path.Join (k :: ns) = path.Join (k :: ms)) : ns = ms := by
  have h1 := congrArg String.data h
  rw [Join_names ns hk hn, Join_names ms hk hm] at h1
  have hc := path.canon_cleanElems k.data
  have hreal : ∀ (l : List String), (∀ n ∈ l, GoodName n) → ∀ e ∈ l.map String.data, path.Real e := by
    intro l hl e he
    obtain ⟨n, hn, rfl⟩ := List.mem_map.1 he
    exact (hl n hn).real
  have h2 := (path.render_canon (path.canon_append_real hc _ (hreal ns hn))).2.2
  have h3 := (path.render_canon (path.canon_append_real hc _ (hreal ms hm))).2.2
  rw [h1, h3] at h2
  have h4 := List.append_cancel_left h2
  exact (List.map_injective_iff.2 (fun a b hab => String.ext hab) h4).symm


/-- C3, amended: for every non-empty key `k`, every result mapping and every nested mapping
whose leaves are all strings and whose entry names are non-empty, contain no `/` and are not
`.` or `..` (and, as in any Go map, differ within one mapping), provided that no joined key `path.Join(k, n1, ..., nj)` of a leaf contains the
text `data/`: the joined keys of distinct leaves differ, flatten writes the string of each
leaf under its joined key, and it leaves every other key of the mapping unchanged. -/
theorem flatten_writes_each_leaf (k mount : String) (entries : List (String × Value))
    (vars : Vars) (hk : k ≠ "") (hp : (Value.map entries).Plain)
    (hd : ∀ f ∈ (Value.map entries).fields,
      ¬ strings.Contains (path.Join (k :: f.1)) "data/") :
    ((Value.map entries).fields.map (fun f => path.Join (k :: f.1))).Nodup ∧
    (∀ f ∈ (Value.map entries).fields,
      flatten k (.map entries) mount vars (path.Join (k :: f.1)) = some f.2) ∧
    (∀ key, (∀ f ∈ (Value.map entries).fields, path.Join (k :: f.1) ≠ key) →
      flatten k (.map entries) mount vars key = vars key) := by
  have hne : k.data ≠ [] := fun h => hk (String.ext h)
  have hc := path.canon_cleanElems k.data
  have hgood := fields_good _ hp
  have hkey : ∀ f ∈ (Value.map entries).fields,
      keyAt (decide (k.data.head? = some '/')) (path.cleanElems k.data) f.1 =
        path.Join (k :: f.1) := by
    intro f hf
    apply String.ext
    rw [Join_names f.1 hne (hgood f hf)]
    rfl
  have heq := flatten_eq_foldl (.map entries) k _ _ mount vars hc hne rfl rfl
    (fun s h => by cases h) hp (fun f hf => by rw [hkey f hf]; exact hd f hf)
  have hfold : flatten k (.map entries) mount vars =
      (Value.map entries).fields.foldl
        (fun vars f => vars.set (path.Join (k :: f.1)) f.2) vars := by
    rw [heq]
    apply List.foldl_ext
    intro vars f hf
    rw [hkey f hf]
  have hnd : ((Value.map entries).fields.map (fun f => path.Join (k :: f.1))).Nodup := by
    have : (Value.map entries).fields.map (fun f => path.Join (k :: f.1)) =
        ((Value.map entries).fields.map Prod.fst).map (fun ns => path.Join (k :: ns)) := by
      simp [List.map_map, Function.comp]
    rw [this]
    refine List.Nodup.map_on ?_ (fields_nodup _ hp)
    intro ns hns ms hms h
    obtain ⟨f, hf, rfl⟩ := List.mem_map.1 hns
    obtain ⟨g, hg, rfl⟩ := List.mem_map.1 hms
    exact Join_injective hne (hgood f hf) (hgood g hg) h
  refine ⟨hnd, ?_, ?_⟩
  · intro f hf
    rw [hfold]
    exact foldl_set_of_mem (fun f => path.Join (k :: f.1)) Prod.snd _ vars hnd f hf
  · intro key h
    rw [hfold]
    exact foldl_set_of_not_mem (fun f => path.Join (k :: f.1)) Prod.snd key _ vars h

theorem exampleValue_plain :
    (Value.map [("a", .str "1"), ("b", .map [("c", .str "2")])]).Plain := by
  simp only [Value.Plain, PlainAll, GoodName]
  decide

/-- C3 amended, at the mapping `a: 1, b: (c: 2)` under the key `k` and an empty result
mapping: the result holds `k/a = 1`, `k/b/c = 2` and nothing else. -/
theorem flatten_writes_each_leaf_witness :
    flatten "k" (.map [("a", .str "1"), ("b", .map [("c", .str "2")])]) "m" (fun _ => none)
        "k/a" = some "1" ∧
    flatten "k" (.map [("a", .str "1"), ("b", .map [("c", .str "2")])]) "m" (fun _ => none)
        "k/b/c" = some "2" ∧
    ∀ key, key ≠ "k/a" → key ≠ "k/b/c" →
      flatten "k" (.map [("a", .str "1"), ("b", .map [("c", .str "2")])]) "m" (fun _ => none)
        key = none := by
  have h := flatten_writes_each_leaf "k" "m" [("a", .str "1"), ("b", .map [("c", .str "2")])]
    (fun _ => none) (by decide) exampleValue_plain (by decide)
  refine ⟨h.2.1 (["a"], "1") (by decide), h.2.1 (["b", "c"], "2") (by decide), ?_⟩
  intro key h1 h2
  refine h.2.2 key ?_
  intro f hf
  have hf2 : f = (["a"], "1") ∨ f = (["b", "c"], "2") := by
    simpa [Value.fields, fieldsOf] using hf
  rcases hf2 with rfl | rfl
  · exact fun h => h1 h.symm
  · exact fun h => h2 h.symm

/-- C3 as stated fails. The key `mydata` does not contain `data/`, yet the leaf `a` is
written under `mya`, not under `path.Join("mydata", "a") = "mydata/a"`; and under the empty
key the leaf `a` is written under `/a`, not under `path.Join("", "a") = "a"`. -/
theorem flatten_writes_each_leaf_counterexample :
    ¬ strings.Contains "mydata" "data/" ∧ (Value.map [("a", .str "1")]).Plain ∧
    path.Join ["mydata", "a"] = "mydata/a" ∧
    flatten "mydata" (.map [("a", .str "1")]) "m" (fun _ => none) "mydata/a" = none ∧
    flatten "mydata" (.map [("a", .str "1")]) "m" (fun _ => none) "mya" = some "1" ∧
    ¬ strings.Contains "" "data/" ∧ path.Join ["", "a"] = "a" ∧
    flatten "" (.map [("a", .str "1")]) "m" (fun _ => none) "a" = none ∧
    flatten "" (.map [("a", .str "1")]) "m" (fun _ => none) "/a" = some "1" := by
  refine ⟨by decide, ?_, by decide, by decide, by decide, by decide, by decide, by decide,
    by decide⟩
  simp only [Value.Plain, PlainAll, GoodName]
  decide

/-! ## Further claims: listing -/

/-- C19: for a secret tree all of whose directories the store answers, version "1" or "2",
an empty accumulator and a recursion budget above the height of the tree,
RecursiveListSecret returns the leaf paths in the reverse of the order in which the
depth-first walk (children in the order of the list response) discovers them: the first
leaf found is the last element. -/
theorem RecursiveListSecret_reverse_discovery (vault : Client) (mount version : String)
    (d : Dir) (fuel : Nat) (hv : version = "1" ∨ version = "2")
    (hs : Serves vault mount version "" d) (hn : d.WellNamed) (hc : d.failures = 0)
    (hf : d.height < fuel) :
    RecursiveListSecret fuel vault mount "" version [] =
      .ok ((d.leafNames.map (secretPath mount version)).reverse,
        (d.leafNames.map (secretPath mount version)).reverse) := by
  have h := walk_eq vault mount version hv fuel d "" [] hs hn (Nat.le_of_lt hf)
  rw [discovered_eq mount version d "" hc,
    List.map_congr_left (fun ns _ => leafPrefix_root mount version hv ns)] at h
  simpa using h

/-- C19 at the version 2 mount `/m` with the children `x` and `y/` (containing `z`): `x` is
discovered first and returned last. -/
theorem RecursiveListSecret_reverse_discovery_witness :
    RecursiveListSecret 3 exampleStore "/m" "" "2" [] =
      .ok (["/m/data/y/z", "/m/data/x"], ["/m/data/y/z", "/m/data/x"]) ∧
    exampleTree.leafNames.map (secretPath "/m" "2") = ["/m/data/x", "/m/data/y/z"] :=
  ⟨RecursiveListSecret_reverse_discovery exampleStore "/m" "2" exampleTree 3 (Or.inr rfl)
    exampleStore_serves exampleTree_wellNamed (by decide) (by decide), by decide⟩

/-- C15, amended: for version "1" and version "2", when the very first list call for a mount
yields nothing (no response, or an error) and the accumulator starts empty,
RecursiveListSecret returns exactly one path; for version 1 that path is the mount's own
base path, so listing a version 1 mount with no child keys yields exactly `[mount]`. -/
theorem RecursiveListSecret_first_listing_fails (vault : Client) (mount version : String)
    (fuel : Nat) (hv : version = "1" ∨ version = "2")
    (h : ∀ secret, ListSecret vault mount "" version ≠ (some secret, none)) :
    ∃ p, RecursiveListSecret (fuel + 1) vault mount "" version [] = .ok ([p], [p]) ∧
      (version = "1" → p = mount) := by
  refine ⟨degeneratePath mount version, ?_, ?_⟩
  · have := walk_eq vault mount version hv (fuel + 1) .unlisted "" []
      (by simpa [Serves] using h) (by simp [Dir.WellNamed]) (by simp [Dir.height])
    simpa [Dir.discovered] using this
  · intro h1; simp [degeneratePath, h1]

/-- C15 as stated fails for version 2: for the mount `/m` whose first listing yields
nothing, the one recorded path is `/mdata/`, not the mount path `/m`. -/
theorem RecursiveListSecret_first_listing_fails_counterexample :
    (∀ secret, ListSecret emptyClient "/m" "" "2" ≠ (some secret, none)) ∧
    RecursiveListSecret 1 emptyClient "/m" "" "2" [] = .ok (["/mdata/"], ["/mdata/"]) ∧
    ("/mdata/" : String) ≠ "/m" :=
  ⟨fun _ h => by simp [ListSecret, emptyClient] at h, rfl, by decide⟩

/-- C15 amended, at a version 1 mount `/m` without child keys: the result is `[/m]`. -/
theorem RecursiveListSecret_first_listing_fails_witness :
    ∃ p, RecursiveListSecret 1 emptyClient "/m" "" "1" [] = .ok ([p], [p]) ∧
      (("1" : String) = "1" → p = "/m") :=
  RecursiveListSecret_first_listing_fails emptyClient "/m" "1" 0 (Or.inl rfl)
    (fun _ h => by simp [ListSecret, emptyClient] at h)

/-- C13: for the auth method token with a non-empty token parameter `t`, whatever the
session was before, and every response of the lookup-self read that comes without error
(also an absent response or one without auth block), authenticate returns nil, the session
token afterwards is exactly `t`, and the one request issued is the lookup-self read. -/
theorem authenticate_token (c : Client) (tokenFile : Except Error String)
    (params : String → Option String) (s : Session)
    (ht : (params "token").getD "" ≠ "")
    (hr : (c.read "/auth/token/lookup-self").2 = none) :
    authenticate c tokenFile "token" params s =
      (.ok none, ⟨(params "token").getD "", s.requests ++ [.read "/auth/token/lookup-self"]⟩) := by
  simp [authenticate, authenticateBody, loginSwitch, getParameter_present ht, hr, ht,
    panicToError]

/-- C13 at the token `t` against a store that answers the lookup-self read with nothing. -/
theorem authenticate_token_witness :
    authenticate emptyClient (.ok "jwt") "token" (paramsOf [("token", "t")]) ⟨"", []⟩ =
      (.ok none, ⟨"t", [.read "/auth/token/lookup-self"]⟩) :=
  authenticate_token emptyClient (.ok "jwt") (paramsOf [("token", "t")]) ⟨"", []⟩
    (by decide) rfl

theorem flattenEntries_append (key mount : String) : ∀ (a b : List (String × Value)) (vars : Vars),
    flattenEntries key (a ++ b) mount vars =
      flattenEntries key b mount (flattenEntries key a mount vars) := by
  intro a
  induction a with
  | nil => intro b vars; simp [flattenEntries]
  | cons e a ih =>
    intro b vars
    obtain ⟨n, v⟩ := e
    simp only [List.cons_append, flattenEntries]
    exact ih b _

theorem flatten_unsupported (key mount : String) (vars : Vars) {v : Value}
    (hv : v.Unsupported) : flatten key v mount vars = vars := by
  cases v <;> simp [Value.Unsupported] at hv <;> simp [flatten]

/-- C12: for every key, every result mapping and every mapping value with an entry whose
value is neither a string nor a mapping, flatten (a total function: it returns) writes
nothing for that entry and yields the same mapping as for the mapping value without the
entry, so the sibling entries are written as if the unsupported entry were absent. -/
theorem flatten_skips_unsupported (key mount : String) (vars : Vars)
    (before after : List (String × Value)) (n : String) (v : Value) (hv : v.Unsupported) :
    flatten (path.Join [key, "/", n]) v mount vars = vars ∧
    flatten key (.map (before ++ (n, v) :: after)) mount vars =
      flatten key (.map (before ++ after)) mount vars := by
  refine ⟨flatten_unsupported _ _ _ hv, ?_⟩
  simp only [flatten, flattenEntries_append, flattenEntries, flatten_unsupported _ _ _ hv]

/-- C12 at the mapping `a: 1, n: 7, b: 2` with the number `7` as unsupported value. -/
theorem flatten_skips_unsupported_witness :
    flatten (path.Join ["k", "/", "n"]) (.num "7") "m" (fun _ => none) = (fun _ => none) ∧
    flatten "k" (.map ([("a", .str "1")] ++ ("n", .num "7") :: [("b", .str "2")])) "m"
        (fun _ => none) =
      flatten "k" (.map ([("a", .str "1")] ++ [("b", .str "2")])) "m" (fun _ => none) :=
  flatten_skips_unsupported "k" "m" (fun _ => none) [("a", .str "1")] [("b", .str "2")] "n"
    (.num "7") trivial

/-- C20, evaluated: for the prefixes `/`, the empty prefix, `*`, `/*` and `secret` the
trimmed path splits into a single element, the index expression `split[1]` of getMount is
out of range, and GetValues panics. -/
theorem GetValues_prefix_without_mount_panics :
    strings.TrimRight "/" "/*" = "" ∧ strings.Split "" "/" = [""] ∧
    (GetValues 5 emptyClient exampleCodec ["/"] []).map (fun f => f.requests.length) =
      runtimePanic "index out of range [1] with length 1" ∧
    (GetValues 5 emptyClient exampleCodec [""] []).map (fun f => f.requests.length) =
      runtimePanic "index out of range [1] with length 1" ∧
    (GetValues 5 emptyClient exampleCodec ["*"] []).map (fun f => f.requests.length) =
      runtimePanic "index out of range [1] with length 1" ∧
    (GetValues 5 emptyClient exampleCodec ["/*"] []).map (fun f => f.requests.length) =
      runtimePanic "index out of range [1] with length 1" ∧
    (GetValues 5 emptyClient exampleCodec ["secret"] []).map (fun f => f.requests.length) =
      runtimePanic "index out of range [1] with length 1" :=
  ⟨by decide, by decide, rfl, rfl, rfl, rfl, rfl⟩

/-- C14, evaluated: in the version 1 mount `/a` the listing discovers `/a/y` and `/a/x`; the
read of `/a/x` returns an error and no payload, `resp.Data` is evaluated on the nil
response, and GetValues panics instead of returning the keys of `/a/y`. -/
theorem GetValues_failed_read_panics :
    RecursiveListSecret 5 failingReadStore "/a" "" "1" [] = .ok (["/a/y", "/a/x"], ["/a/y", "/a/x"]) ∧
    failingReadStore.read "/a/x" = (none, some "permission denied") ∧
    (GetValues 5 failingReadStore exampleCodec ["/a/x"] []).map (fun f => f.vars "/a/y/f") =
      runtimePanic "invalid memory address or nil pointer dereference" :=
  ⟨rfl, rfl, rfl⟩

/-! ## Further claims: mounts -/

theorem splitScan_slash : ∀ (cs cur : List Char),
    strings.splitScan ['/'] 0 cur cs =
      (List.modifyHead (fun x => cur.reverse ++ x) (cs.splitOn '/')).map String.mk := by
  intro cs
  induction cs with
  | nil => intro cur; simp [strings.splitScan, List.modifyHead]
  | cons c cs ih =>
    intro cur
    have hne := List.splitOnP_ne_nil (· == '/') cs
    by_cases hc : c = '/'
    · subst hc
      rw [path.splitOn_sep_cons]
      simp only [strings.splitScan, List.isPrefixOf, beq_self_eq_true, Bool.and_self, if_true,
        List.length_singleton, Nat.sub_self, ih, List.modifyHead, List.map_cons, List.reverse_nil,
        List.append_nil, List.nil_append]
      congr 1
      simp only [List.splitOn]
      cases h : List.splitOnP (· == '/') cs with
      | nil => exact absurd h hne
      | cons x xs => simp [List.modifyHead]
    · have hb : (c == '/') = false := by simpa using hc
      have hp : List.isPrefixOf ['/'] (c :: cs) = false := by
        simp [List.isPrefixOf, hc, Ne.symm hc]
      rw [strings.splitScan, hp]
      simp only [Bool.false_eq_true, if_false, ih]
      simp only [List.splitOn, List.splitOnP_cons, hb, Bool.false_eq_true, if_false]
      cases h : List.splitOnP (· == '/') cs with
      | nil => exact absurd h hne
      | cons x xs => simp [List.modifyHead]

theorem Split_slash (s : String) :
    strings.Split s "/" = (s.data.splitOn '/').map String.mk := by
  have hne : ¬ (("/" : String).data = []) := by decide
  rw [strings.Split, if_neg hne]
  have : ("/" : String).data = ['/'] := rfl
  rw [this, splitScan_slash]
  have hne2 := List.splitOnP_ne_nil (· == '/') s.data
  simp only [List.splitOn]
  cases h : List.splitOnP (· == '/') s.data with
  | nil => exact absurd h hne2
  | cons x xs => simp [List.modifyHead]

/-- C11, amended: for every path that begins with a separator, that is `/` followed by a
segment `s` without `/` and a rest that is empty or begins with `/`, getMount returns `/`
followed by `s`, the first path segment. -/
theorem getMount_first_segment (s r : String) (hs : '/' ∉ s.data)
    (hr : r = "" ∨ r.data.head? = some '/') :
    getMount ("/" ++ s ++ r) = .ok ("/" ++ s) := by
  have hdata : ("/" ++ s ++ r).data = '/' :: (s.data ++ r.data) := by simp
  have h1 : (strings.Split ("/" ++ s ++ r) "/")[1]? = some s := by
    rw [Split_slash, hdata, path.splitOn_sep_cons]
    rcases hr with hr | hr
    · subst hr
      simp [path.splitOn_no_sep hs]
    · cases hd : r.data with
      | nil => rw [hd] at hr; simp at hr
      | cons c cs =>
        rw [hd] at hr
        simp only [List.head?_cons, Option.some.injEq] at hr
        subst hr
        rw [path.splitOn_append_sep, path.splitOn_no_sep hs]
        simp
  simp only [getMount, h1]
  rfl

/-- C11 amended, at the path `/secret/foo/bar`: the mount is `/secret`. -/
theorem getMount_first_segment_witness :
    getMount ("/" ++ "secret" ++ "/foo/bar") = .ok ("/" ++ "secret") :=
  getMount_first_segment "secret" "/foo/bar" (by decide) (Or.inr rfl)

/-- C11 as stated fails for a path that does not begin with a single separator: the mount
of `secret/foo` is `/foo`, not `/secret`; the mount of `//secret` is `/`; and for `secret`
the index is out of range. -/
theorem getMount_first_segment_counterexample :
    getMount "secret/foo" = .ok "/foo" ∧ getMount "//secret" = .ok "/" ∧
    getMount "secret" = runtimePanic "index out of range [1] with length 1" :=
  ⟨rfl, rfl, rfl⟩

/-! ## Further claims: login requests -/

theorem panicToError_session (r : Except PanicValue (Option Error) × Session) :
    (panicToError r).2 = r.2 := by
  obtain ⟨o, s⟩ := r
  cases o with
  | error p => cases p <;> rfl
  | ok e => rfl

/-- Whatever the login answers, `authenticate` issues the requests of its switch and no
other. -/
theorem authenticate_requests (c : Client) (tokenFile : Except Error String)
    (authType : String) (params : String → Option String) (s : Session) :
    (authenticate c tokenFile authType params s).2.requests =
      (loginSwitch c tokenFile authType ("/auth/" ++ tableSegment authType params ++ "/login")
        params s).2.requests := by
  rw [authenticate, panicToError_session, authenticateBody]
  simp only [tableSegment]
  generalize loginSwitch c tokenFile authType _ params s = r
  obtain ⟨o, s2⟩ := r
  cases o with
  | error p => rfl
  | ok sw =>
    cases sw with
    | returned e => rfl
    | fellThrough secret err =>
      simp only
      split_ifs
      · rfl
      · rfl
      · rcases secret with _ | ⟨d, _ | a⟩ <;> rfl

/-- With its parameters present, each login method leaves the switch after the one write of
the method table; the error it hands on is the error of that write, except in the
kubernetes case, where it is nil. -/
theorem loginSwitch_table (c : Client) (tokenFile : Except Error String)
    (authType : String) (params : String → Option String) (s : Session) (jwt : String)
    (hm : authType ∈ ["app-role", "app-id", "github", "userpass", "kubernetes", "cert"])
    (hp : ∀ k ∈ requiredParams authType, (params k).getD "" ≠ "")
    (hf : authType = "kubernetes" → tokenFile = .ok jwt) :
    loginSwitch c tokenFile authType ("/auth/" ++ tableSegment authType params ++ "/login")
        params s =
      (.ok (.fellThrough (c.write (tablePath authType params) (tableBody authType params jwt)).1
          (if authType = "kubernetes" then none
            else (c.write (tablePath authType params) (tableBody authType params jwt)).2)),
        { s with requests := s.requests ++
            [.write (tablePath authType params) (tableBody authType params jwt)] }) := by
  simp only [List.mem_cons, List.mem_singleton, List.not_mem_nil, or_false] at hm
  rcases hm with rfl | rfl | rfl | rfl | rfl | rfl
  · have h1 := hp "role-id" (by decide)
    have h2 := hp "secret-id" (by decide)
    simp [loginSwitch, getParameter_present h1, getParameter_present h2, Session.write,
      tablePath, tableBody]
  · have h1 := hp "app-id" (by decide)
    have h2 := hp "user-id" (by decide)
    simp [loginSwitch, getParameter_present h1, getParameter_present h2, Session.write,
      tablePath, tableBody]
  · have h1 := hp "token" (by decide)
    simp [loginSwitch, getParameter_present h1, Session.write, tablePath, tableBody]
  · have h1 := hp "username" (by decide)
    have h2 := hp "password" (by decide)
    simp [loginSwitch, getParameter_present h1, getParameter_present h2, Session.write,
      tablePath, tableBody]
  · have h1 := hp "role-id" (by decide)
    rw [hf rfl]
    simp [loginSwitch, getParameter_present h1, Session.write, tablePath, tableBody]
  · simp [loginSwitch, Session.write, tablePath, tableBody]

/-- C8, amended: for every login method other than token with its required parameters
present (for kubernetes with the token file read as `jwt`), every session whose token is
empty before the call, and a login write that returns without error: authenticate issues
that one write; if its response has an auth block, authenticate returns nil and the session
token is that block's client token; if the response is absent or has no auth block,
authenticate returns the error "unable to authenticate". -/
theorem authenticate_login_response (c : Client) (tokenFile : Except Error String)
    (authType : String) (params : String → Option String) (s : Session) (jwt : String)
    (hm : authType ∈ ["app-role", "app-id", "github", "userpass", "kubernetes", "cert"])
    (hp : ∀ k ∈ requiredParams authType, (params k).getD "" ≠ "")
    (hf : authType = "kubernetes" → tokenFile = .ok jwt)
    (hw : (c.write (tablePath authType params) (tableBody authType params jwt)).2 = none)
    (ht : s.token = "") :
    (authenticate c tokenFile authType params s).2.requests =
      s.requests ++ [.write (tablePath authType params) (tableBody authType params jwt)] ∧
    (∀ sec auth,
      (c.write (tablePath authType params) (tableBody authType params jwt)).1 = some sec →
      sec.Auth = some auth →
      (authenticate c tokenFile authType params s).1 = .ok none ∧
      (authenticate c tokenFile authType params s).2.token = auth.ClientToken) ∧
    (((c.write (tablePath authType params) (tableBody authType params jwt)).1 = none ∨
        ∃ sec, (c.write (tablePath authType params) (tableBody authType params jwt)).1 = some sec ∧
          sec.Auth = none) →
      (authenticate c tokenFile authType params s).1 = .ok (some "unable to authenticate")) := by
  have h := loginSwitch_table c tokenFile authType params s jwt hm hp hf
  have hurl : ("/auth/" ++ (if (params "path").getD "" = "" then
      (if authType = "app-role" then "approle" else authType) else (params "path").getD "") ++
      "/login") = "/auth/" ++ tableSegment authType params ++ "/login" := by
    simp [tableSegment]
  simp only [authenticate, authenticateBody, hurl, h, hw, ite_self]
  rcases hr : (c.write (tablePath authType params) (tableBody authType params jwt)).1 with
    _ | ⟨d, _ | auth⟩
  · simp [panicToError, ht]
  · refine ⟨by simp [panicToError, ht], ?_, by simp [panicToError, ht]⟩
    intro sec auth h1 h2
    cases h1
    cases h2
  · refine ⟨by simp [panicToError, ht], ?_, ?_⟩
    · intro sec a h1 h2
      cases h1
      cases h2
      simp [panicToError, ht]
    · intro h3
      rcases h3 with h3 | ⟨sec, h3, h4⟩
      · cases h3
      · cases h3
        cases h4

/-- C8 amended, at a github login answered with the client token `new` by a store whose
every other write fails. -/
theorem authenticate_login_response_witness :
    (authenticate pickyStore (.ok "jwt") "github" (paramsOf [("token", "t")]) ⟨"", []⟩).1 =
      .ok none ∧
    (authenticate pickyStore (.ok "jwt") "github" (paramsOf [("token", "t")]) ⟨"", []⟩).2.token =
      "new" :=
  (authenticate_login_response pickyStore (.ok "jwt") "github" (paramsOf [("token", "t")])
    ⟨"", []⟩ "jwt" (by decide) (by decide) (fun h => absurd h (by decide)) rfl rfl).2.1
    ⟨[], some ⟨"new"⟩⟩ ⟨"new"⟩ rfl rfl

/-- C17, amended: for each login method (app-role, app-id, github, userpass, kubernetes,
cert) with its required parameters present, and for kubernetes when the service-account
token file can be read (as `jwt`),
authenticate issues exactly one request, a write at the path of the method table with the
body of the method table. The code writes the path with a leading separator,
`/auth/<seg>/login` (for userpass followed by `/<username>`), where `<seg>` is the path
parameter when supplied and not empty, else `approle` for app-role and the method name. -/
theorem authenticate_login_request (c : Client) (tokenFile : Except Error String)
    (authType : String) (params : String → Option String) (s : Session) (jwt : String)
    (hm : authType ∈ ["app-role", "app-id", "github", "userpass", "kubernetes", "cert"])
    (hp : ∀ k ∈ requiredParams authType, (params k).getD "" ≠ "")
    (hf : authType = "kubernetes" → tokenFile = .ok jwt) :
    (authenticate c tokenFile authType params s).2.requests =
      s.requests ++ [.write (tablePath authType params) (tableBody authType params jwt)] := by
  rw [authenticate_requests]
  simp only [List.mem_cons, List.mem_singleton, List.not_mem_nil, or_false] at hm
  rcases hm with rfl | rfl | rfl | rfl | rfl | rfl
  · have h1 := hp "role-id" (by decide)
    have h2 := hp "secret-id" (by decide)
    simp [loginSwitch, getParameter_present h1, getParameter_present h2, Session.write,
      tablePath, tableBody]
  · have h1 := hp "app-id" (by decide)
    have h2 := hp "user-id" (by decide)
    simp [loginSwitch, getParameter_present h1, getParameter_present h2, Session.write,
      tablePath, tableBody]
  · have h1 := hp "token" (by decide)
    simp [loginSwitch, getParameter_present h1, Session.write, tablePath, tableBody]
  · have h1 := hp "username" (by decide)
    have h2 := hp "password" (by decide)
    simp [loginSwitch, getParameter_present h1, getParameter_present h2, Session.write,
      tablePath, tableBody]
  · have h1 := hp "role-id" (by decide)
    rw [hf rfl]
    simp [loginSwitch, getParameter_present h1, Session.write, tablePath, tableBody]
  · simp [loginSwitch, Session.write, tablePath, tableBody]

/-- C17 amended, at a userpass login with the path parameter `ldap`: the one request is the write
of the password at `/auth/ldap/login/u`. -/
theorem authenticate_login_request_witness :
    (authenticate emptyClient (.ok "jwt") "userpass"
        (paramsOf [("username", "u"), ("password", "p"), ("path", "ldap")]) ⟨"", []⟩).2.requests =
      [] ++ [.write "/auth/ldap/login/u" [("password", .str "p")]] :=
  authenticate_login_request emptyClient (.ok "jwt") "userpass"
    (paramsOf [("username", "u"), ("password", "p"), ("path", "ldap")]) ⟨"", []⟩ "jwt"
    (by decide) (by decide) (fun h => absurd h (by decide))

/-- C17 as stated fails for kubernetes: with `role-id` present and the service-account
token file unreadable, authenticate returns the error of the file read before the write and
issues no request. -/
theorem authenticate_login_request_counterexample :
    (∀ k ∈ requiredParams "kubernetes", (paramsOf [("role-id", "r")] k).getD "" ≠ "") ∧
    authenticate emptyClient (.error "open token: no such file or directory") "kubernetes"
        (paramsOf [("role-id", "r")]) ⟨"", []⟩ =
      (.ok (some "open token: no such file or directory"), ⟨"", []⟩) :=
  ⟨by decide, rfl⟩

/-! ## Further claims: probes -/

theorem probes_append (a b : List Request) : probes (a ++ b) = probes a ++ probes b := by
  induction a with
  | nil => rfl
  | cons r a ih => cases r <;> simp [probes, ih]

theorem readSecretV1_probes {c : Client} {lib : Codec} {mount : String} {st st2 : Fetch}
    {secret : String} (h : readSecretV1 c lib mount st secret = .ok st2) :
    probes st2.requests = probes st.requests := by
  unfold readSecretV1 at h
  simp only at h
  split at h
  · cases h
  · cases h
    simp [probes_append, probes]

theorem readSecretV2_probes {c : Client} {lib : Codec} {mount : String} {st st2 : Fetch}
    {secret : String} (h : readSecretV2 c lib mount st secret = .ok st2) :
    probes st2.requests = probes st.requests := by
  unfold readSecretV2 at h
  simp only at h
  split at h
  · cases h
  · cases h
    simp [probes_append, probes]

theorem foldlM_probes (f : Fetch → String → Run Fetch)
    (hf : ∀ st s st2, f st s = .ok st2 → probes st2.requests = probes st.requests) :
    ∀ (l : List String) (st st2 : Fetch), l.foldlM f st = .ok st2 →
      probes st2.requests = probes st.requests := by
  intro l
  induction l with
  | nil => intro st st2 h; cases h; rfl
  | cons s l ih =>
    intro st st2 h
    rw [List.foldlM_cons] at h
    cases h1 : f st s with
    | error e => rw [h1] at h; cases h
    | ok st1 =>
      rw [h1] at h
      exact (ih st1 st2 h).trans (hf st s st1 h1)

theorem fetchMount_probes {fuel : Nat} {c : Client} {lib : Codec} {st st2 : Fetch}
    {mount : String} (h : fetchMount fuel c lib st mount = .ok st2) :
    probes st2.requests = probes st.requests ++ ["/sys/internal/ui/mounts/" ++ mount] := by
  have hbase : probes (st.requests ++ [Request.readRaw ("/sys/internal/ui/mounts/" ++ mount)]) =
      probes st.requests ++ ["/sys/internal/ui/mounts/" ++ mount] := by
    simp [probes_append, probes]
  unfold fetchMount at h
  simp only [bind, Except.bind, pure, Except.pure] at h
  cases hr : (c.readRaw ("/sys/internal/ui/mounts/" ++ mount)).1 with
  | none => rw [hr] at h; simp [runtimePanic] at h
  | some body =>
    rw [hr] at h
    simp only at h
    cases hp : (lib.ParseSecret body).1 with
    | none => rw [hp] at h; simp [runtimePanic] at h
    | some secret =>
      rw [hp] at h
      simp only at h
      by_cases he : (index secret.Data "type").eqString "kv" = true
      · rw [if_pos he] at h
        cases hm : assertMap (index secret.Data "options") with
        | error e => rw [hm] at h; cases h
        | ok options =>
          rw [hm] at h
          simp only at h
          cases hs : assertString (index options "version") with
          | error e => rw [hs] at h; cases h
          | ok version =>
            rw [hs] at h
            simp only at h
            by_cases h1 : version = "" ∨ version = "1"
            · rw [if_pos h1] at h
              cases hl : RecursiveListSecret fuel c mount "" version st.secretListPath with
              | error e => rw [hl] at h; cases h
              | ok r =>
                rw [hl] at h
                simp only at h
                rw [foldlM_probes _ (fun _ _ _ => readSecretV1_probes) _ _ _ h]
                exact hbase
            · rw [if_neg h1] at h
              by_cases h2 : version = "2"
              · rw [if_pos h2] at h
                cases hl : RecursiveListSecret fuel c mount "" version st.secretListPath with
                | error e => rw [hl] at h; cases h
                | ok r =>
                  rw [hl] at h
                  simp only at h
                  rw [foldlM_probes _ (fun _ _ _ => readSecretV2_probes) _ _ _ h]
                  exact hbase
              · rw [if_neg h2] at h
                cases h
                exact hbase
      · rw [if_neg he] at h
        cases h
        exact hbase

theorem foldlM_fetchMount_probes {fuel : Nat} {c : Client} {lib : Codec} :
    ∀ (mounts : List String) (st st2 : Fetch),
      mounts.foldlM (fetchMount fuel c lib) st = .ok st2 →
      probes st2.requests =
        probes st.requests ++ mounts.map (fun m => "/sys/internal/ui/mounts/" ++ m) := by
  intro mounts
  induction mounts with
  | nil => intro st st2 h; cases h; simp
  | cons m mounts ih =>
    intro st st2 h
    rw [List.foldlM_cons] at h
    cases h1 : fetchMount fuel c lib st m with
    | error e => rw [h1] at h; cases h
    | ok st1 =>
      rw [h1] at h
      rw [ih st1 st2 h, fetchMount_probes h1]
      simp

theorem foldlM_getMount : ∀ (paths acc mounts : List String),
    paths.foldlM (fun (mounts : List String) path =>
      (do pure (mounts ++ [← getMount (strings.TrimRight path "/*")]) : Run (List String)))
      acc = .ok mounts →
    ∃ l, mounts = acc ++ l ∧
      List.Forall₂ (fun p m => getMount (strings.TrimRight p "/*") = .ok m) paths l := by
  intro paths
  induction paths with
  | nil => intro acc mounts h; cases h; exact ⟨[], by simp, List.Forall₂.nil⟩
  | cons p paths ih =>
    intro acc mounts h
    rw [List.foldlM_cons] at h
    cases hg : getMount (strings.TrimRight p "/*") with
    | error e => simp [hg, bind, Except.bind] at h
    | ok m =>
      simp only [hg, bind, Except.bind, pure, Except.pure] at h
      obtain ⟨l, hl, hf⟩ := ih _ _ h
      exact ⟨m :: l, by simp [hl], List.Forall₂.cons hg hf⟩

/-- On the runs of GetValues that return, every prefix has a mount (obtained after
stripping trailing `/` and `*`), and the raw reads issued are exactly the probes
`/sys/internal/ui/mounts/<mount>` of the distinct mounts, one each, in the order of their
first occurrence: no probe is repeated and every mount is probed. -/
theorem GetValues_probes_each_mount_once (fuel : Nat) (c : Client) (lib : Codec)
    (paths secretListPath : List String) (f : Fetch)
    (h : GetValues fuel c lib paths secretListPath = .ok f) :
    ∃ mounts, List.Forall₂ (fun p m => getMount (strings.TrimRight p "/*") = .ok m) paths mounts ∧
      probes f.requests = (uniqMounts mounts).map (fun m => "/sys/internal/ui/mounts/" ++ m) ∧
      (probes f.requests).Nodup ∧
      ∀ m, m ∈ mounts ↔ ("/sys/internal/ui/mounts/" ++ m) ∈ probes f.requests := by
  unfold GetValues at h
  simp only [bind, Except.bind] at h
  split at h
  · cases h
  · rename_i mounts hm
    obtain ⟨l, hl, hf⟩ := foldlM_getMount _ _ _ hm
    simp only [List.nil_append] at hl
    subst hl
    have hp := foldlM_fetchMount_probes _ _ _ h
    simp only [probes, List.nil_append] at hp
    have hu := uniqMounts_loop mounts [] (fun _ => none, []) (by simp) (by simp) List.nodup_nil
      List.Pairwise.nil (List.Sublist.refl _)
    simp only [List.nil_append] at hu
    have hinj : Function.Injective (fun m : String => "/sys/internal/ui/mounts/" ++ m) := by
      intro a b hab
      have := congrArg String.data hab
      simp only [String.data_append] at this
      exact String.ext (List.append_cancel_left this)
    refine ⟨mounts, hf, hp, ?_, ?_⟩
    · rw [hp]
      exact hu.1.map hinj
    · intro m
      rw [hp, List.mem_map]
      constructor
      · intro hmem
        exact ⟨m, (hu.2.1 m).2 hmem, rfl⟩
      · rintro ⟨m2, hm2, heq⟩
        have := hinj heq
        subst this
        exact (hu.2.1 _).1 hm2

/-- C16, evaluated: with the prefixes `/b/y` and `/a/x`, whose distinct mounts are `/b` and
`/a`, the loop body panics for the mount `/b`, whose probe returns an error and no response.
Whatever mounts follow `/b` and whatever has been done before, the loop over the mounts
panics in the iteration for `/b`, before the iteration of any later mount: GetValues panics
and the mount `/a` is never probed. The loop body for `/a` alone issues the one probe of
`/a`, and without the prefix `/b/y` GetValues returns with that one probe. -/
theorem GetValues_aborts_before_later_probes :
    getMount (strings.TrimRight "/b/y" "/*") = .ok "/b" ∧
    getMount (strings.TrimRight "/a/x" "/*") = .ok "/a" ∧
    uniqMounts ["/b", "/a"] = ["/b", "/a"] ∧
    (fetchMount 5 (kvStore (some "kv1", none) (none, some "connection refused")) exampleCodec
        ⟨fun _ => none, [], []⟩ "/b").map (fun f => probes f.requests) =
      runtimePanic "invalid memory address or nil pointer dereference" ∧
    (∀ (mounts : List String) (st : Fetch),
      ("/b" :: mounts).foldlM
          (fetchMount 5 (kvStore (some "kv1", none) (none, some "connection refused"))
            exampleCodec) st =
        runtimePanic "invalid memory address or nil pointer dereference") ∧
    (GetValues 5 (kvStore (some "kv1", none) (none, some "connection refused")) exampleCodec
        ["/b/y", "/a/x"] []).map (fun f => probes f.requests) =
      runtimePanic "invalid memory address or nil pointer dereference" ∧
    (fetchMount 5 (kvStore (some "kv1", none) (none, some "connection refused")) exampleCodec
        ⟨fun _ => none, [], []⟩ "/a").map (fun f => probes f.requests) =
      .ok ["/sys/internal/ui/mounts//a"] ∧
    (GetValues 5 (kvStore (some "kv1", none) (none, some "connection refused")) exampleCodec
        ["/a/x"] []).map (fun f => probes f.requests) = .ok ["/sys/internal/ui/mounts//a"] :=
  ⟨rfl, rfl, by decide, rfl, fun _ _ => rfl, rfl, rfl, rfl⟩

/-- The prefixes `/a/x` and `/a/y/*` resolve to the same mount `/a`: GetValues returns and
has probed `/a` exactly once. -/
theorem GetValues_same_mount_probed_once :
    ∃ f, GetValues 5 (kvStore (some "kv1", none) (none, none)) exampleCodec ["/a/x", "/a/y/*"]
        [] = .ok f ∧
      probes f.requests = ["/sys/internal/ui/mounts//a"] ∧
      ∃ mounts,
        List.Forall₂ (fun p m => getMount (strings.TrimRight p "/*") = .ok m) ["/a/x", "/a/y/*"]
          mounts ∧
        probes f.requests = (uniqMounts mounts).map (fun m => "/sys/internal/ui/mounts/" ++ m) ∧
        (probes f.requests).Nodup ∧
        ∀ m, m ∈ mounts ↔ ("/sys/internal/ui/mounts/" ++ m) ∈ probes f.requests :=
  ⟨_, rfl, rfl,
    GetValues_probes_each_mount_once 5 (kvStore (some "kv1", none) (none, none)) exampleCodec
      ["/a/x", "/a/y/*"] [] _ rfl⟩

/-! ## Further claims: blob and fields -/

theorem Join_ne_self {p : String} (hp : p.data ≠ []) {ns : List String} (hns : ns ≠ [])
    (hn : ∀ n ∈ ns, GoodName n) : path.Join (p :: ns) ≠ p := by
  intro h
  have h1 := congrArg String.data h
  rw [Join_names ns hp hn] at h1
  have hreal : ∀ e ∈ ns.map String.data, path.Real e := by
    intro e he
    obtain ⟨n, hn2, rfl⟩ := List.mem_map.1 he
    exact (hn n hn2).real
  have h2 := (path.render_canon
    (path.canon_append_real (path.canon_cleanElems p.data) _ hreal)).2.2
  rw [h1] at h2
  have h3 : path.cleanElems p.data ++ [] = path.cleanElems p.data ++ ns.map String.data := by
    rw [List.append_nil]; exact h2
  have h4 := List.append_cancel_left h3
  cases ns with
  | nil => exact hns rfl
  | cons n ns => simp at h4

theorem foldl_set_last {α : Type} (key : α → String) (val : α → String) :
    ∀ (fs : List α) (vars : Vars), ∀ f ∈ fs, ∃ g ∈ fs, key g = key f ∧
      (fs.foldl (fun vars f => vars.set (key f) (val f)) vars) (key f) = some (val g) := by
  intro fs
  induction fs with
  | nil => intro vars f hf; cases hf
  | cons a fs ih =>
    intro vars f hf
    rw [List.foldl_cons]
    by_cases h : ∃ f2 ∈ fs, key f2 = key f
    · obtain ⟨f2, hf2, hk⟩ := h
      obtain ⟨g, hg, hgk, hval⟩ := ih (vars.set (key a) (val a)) f2 hf2
      exact ⟨g, List.mem_cons_of_mem _ hg, hgk.trans hk, hk ▸ hval⟩
    · have hfa : f = a := by
        rcases List.mem_cons.1 hf with h1 | h1
        · exact h1
        · exact absurd ⟨f, h1, rfl⟩ h
      subst hfa
      refine ⟨f, List.mem_cons_self _ _, rfl, ?_⟩
      rw [foldl_set_of_not_mem key val (key f) fs _ (fun g hg hk => h ⟨g, hg, hk⟩)]
      simp [Vars.set]

/-- The writes of `flatten`: one per string leaf, in the order of the walk, under the key
arrived at with every `data/` deleted. -/
theorem flatten_eq_foldl_writtenKey : ∀ (v : Value) (cur mount : String) (vars : Vars),
    flatten cur v mount vars =
      v.fields.foldl (fun vars f => vars.set (writtenKey cur f.1) f.2) vars := by
  refine Value.valueInduct (Q := fun es => ∀ (cur mount : String) (vars : Vars),
    flattenEntries cur es mount vars =
      (fieldsOf es).foldl (fun vars f => vars.set (writtenKey cur f.1) f.2) vars)
    ?_ ?_ ?_ ?_ ?_ ?_ ?_ ?_
  · intro s cur mount vars
    simp [flatten, Value.fields, writtenKey, fieldKey]
  · intro es hq cur mount vars
    simpa [flatten, Value.fields] using hq cur mount vars
  · intro _ cur mount vars; simp [flatten, Value.fields]
  · intro _ cur mount vars; simp [flatten, Value.fields]
  · intro _ cur mount vars; simp [flatten, Value.fields]
  · intro cur mount vars; simp [flatten, Value.fields]
  · intro cur mount vars; simp [flattenEntries, fieldsOf]
  · intro n v rest hv hrest cur mount vars
    simp only [flattenEntries, fieldsOf, List.foldl_append, List.foldl_map]
    rw [hv, hrest]
    simp only [writtenKey, fieldKey]

/-- Along good entry names the key arrived at is the current key joined with the names. -/
theorem fieldKey_eq_Join : ∀ (ns : List String) (p : String), p.data ≠ [] → ns ≠ [] →
    (∀ n ∈ ns, GoodName n) → fieldKey p ns = path.Join (p :: ns) := by
  intro ns
  induction ns with
  | nil => intro p _ h; exact absurd rfl h
  | cons n ns ih =>
    intro p hp _ hn
    have hgn : GoodName n := hn n (List.mem_cons_self _ _)
    have hc := path.canon_cleanElems p.data
    have hc1 := path.canon_snoc_real hc hgn.real
    obtain ⟨h1, h2, h3⟩ := path.render_canon hc1
    have hj := Join_entry hp hgn
    rw [← hj] at h1 h2 h3
    apply String.ext
    rw [fieldKey, Join_names (n :: ns) hp hn]
    by_cases hns : ns = []
    · subst hns
      simp only [fieldKey, List.map_cons, List.map_nil]
      exact hj
    · rw [ih _ h1 hns (fun m hm => hn m (List.mem_cons_of_mem _ hm)),
        Join_names ns h1 (fun m hm => hn m (List.mem_cons_of_mem _ hm)), h3]
      have h2' : ((path.Join [p, "/", n]).data.head? = some '/') ↔
          (p.data.head? = some '/') := by
        have := h2
        simpa using this
      simp only [h2', List.map_cons, List.append_assoc, List.singleton_append]

theorem goodFields_keysDiffer {p : String} {v : Value} (hp : p ≠ "") (h : GoodFields p v) :
    KeysDiffer p v := by
  have hne : p.data ≠ [] := fun h0 => hp (String.ext h0)
  intro f hf
  rcases h f hf with ⟨hgood, hnil, h1⟩ | ⟨h1, h2⟩
  · rw [writtenKey, ReplaceAll_of_not_Contains h1, fieldKey_eq_Join f.1 p hne hnil hgood]
    exact Join_ne_self hne hnil hgood
  · intro heq
    rw [heq] at h2
    exact h2 h1

theorem flatten_blob (p js mount : String) (v : Value) (vars : Vars) :
    FieldsHeld p v (flatten p v mount (vars.set p js)) ∧
    (KeysDiffer p v → flatten p v mount (vars.set p js) p = some js) := by
  rw [flatten_eq_foldl_writtenKey]
  refine ⟨?_, ?_⟩
  · intro f hf
    exact foldl_set_last (fun (f : List String × String) => writtenKey p f.1) Prod.snd _ _ f hf
  · intro hdiff
    rw [foldl_set_of_not_mem (fun (f : List String × String) => writtenKey p f.1) Prod.snd p
      _ _ hdiff]
    simp [Vars.set]

theorem loopBody_vars (version : String) (c : Client) (lib : Codec) (mount : String)
    (st : Fetch) (q : String) (resp : Secret) (hr : (c.read q).1 = some resp) :
    ∃ st2, loopBody version c lib mount st q = .ok st2 ∧
      st2.vars = flatten q (payloadOf version resp) mount
        (st.vars.set q (lib.Marshal (payloadOf version resp))) ∧
      st2.secretListPath = st.secretListPath := by
  unfold loopBody payloadOf
  split_ifs
  · refine ⟨⟨flatten q (index resp.Data "data") mount
      (st.vars.set q (lib.Marshal (index resp.Data "data"))), st.secretListPath,
      st.requests ++ [Request.read q]⟩, ?_, rfl, rfl⟩
    simp only [readSecretV2, hr]
    rfl
  · refine ⟨⟨flatten q (.map resp.Data) mount
      (st.vars.set q (lib.Marshal (.map resp.Data))), st.secretListPath,
      st.requests ++ [Request.read q]⟩, ?_, rfl, rfl⟩
    simp only [readSecretV1, hr]
    rfl

/-- The loop over the secrets of one mount, under an invariant of the secrets still to be
read and the mapping. -/
theorem foldlM_loopBody (c : Client) (lib : Codec) (mount : String)
    (I : List (String × String) → Vars → Prop)
    (hstep : ∀ it rest mount st st2, I (it :: rest) st.vars →
      loopBody it.1 c lib mount st it.2 = .ok st2 → I rest st2.vars) :
    ∀ (its rest : List (String × String)) (st : Fetch),
      (∀ it ∈ its, (c.read it.2).1 ≠ none) → I (its ++ rest) st.vars →
      ∃ st2, its.foldlM (fun st it => loopBody it.1 c lib mount st it.2) st = .ok st2 ∧
        I rest st2.vars ∧ st2.secretListPath = st.secretListPath := by
  intro its
  induction its with
  | nil => intro rest st _ hI; exact ⟨st, rfl, hI, rfl⟩
  | cons it its ih =>
    intro rest st hreads hI
    cases hr : (c.read it.2).1 with
    | none => exact absurd hr (hreads it (List.mem_cons_self _ _))
    | some resp =>
      obtain ⟨st1, h1, _, hg⟩ := loopBody_vars it.1 c lib mount st it.2 resp hr
      obtain ⟨st2, h2, hI2, hg2⟩ := ih rest st1
        (fun x hx => hreads x (List.mem_cons_of_mem _ hx)) (hstep it _ mount st st1 hI h1)
      refine ⟨st2, ?_, hI2, hg2.trans hg⟩
      rw [List.foldlM_cons, h1]
      exact h2

theorem foldlM_map_items (version : String) (f : Fetch → String → Run Fetch)
    (g : Fetch → String × String → Run Fetch) (h : ∀ st s, g st (version, s) = f st s) :
    ∀ (l : List String) (st : Fetch),
      l.foldlM f st = (l.map (fun s => (version, s))).foldlM g st := by
  intro l
  induction l with
  | nil => intro st; rfl
  | cons s l ih =>
    intro st
    rw [List.map_cons, List.foldlM_cons, List.foldlM_cons, h]
    cases f st s with
    | error e => rfl
    | ok st1 => exact ih st1

/-- The loop body of GetValues for one mount runs the loop body for the secrets on the
secrets that `mountItems` gives. -/
theorem fetchMount_items {fuel : Nat} {c : Client} {lib : Codec} {st : Fetch} {mount : String}
    {its : List (String × String)} {g1 : List String}
    (h : mountItems fuel c lib st.secretListPath mount = .ok (its, g1)) :
    fetchMount fuel c lib st mount =
      its.foldlM (fun st it => loopBody it.1 c lib mount st it.2)
        ⟨st.vars, g1,
          st.requests ++ [Request.readRaw ("/sys/internal/ui/mounts/" ++ mount)]⟩ := by
  unfold mountItems at h
  unfold fetchMount
  simp only [bind, Except.bind, pure, Except.pure] at h ⊢
  cases hr : (c.readRaw ("/sys/internal/ui/mounts/" ++ mount)).1 with
  | none => rw [hr] at h; simp [runtimePanic] at h
  | some body =>
    rw [hr] at h
    simp only at h ⊢
    cases hp : (lib.ParseSecret body).1 with
    | none => rw [hp] at h; simp [runtimePanic] at h
    | some secret =>
      rw [hp] at h
      simp only at h ⊢
      by_cases he : (index secret.Data "type").eqString "kv" = true
      · rw [if_pos he] at h ⊢
        cases hm : assertMap (index secret.Data "options") with
        | error e => rw [hm] at h; cases h
        | ok options =>
          rw [hm] at h
          simp only at h ⊢
          cases hs : assertString (index options "version") with
          | error e => rw [hs] at h; cases h
          | ok version =>
            rw [hs] at h
            simp only at h ⊢
            by_cases h1 : version = "" ∨ version = "1"
            · have h2 : version ≠ "2" := by
                rcases h1 with rfl | rfl <;> decide
              rw [if_pos h1] at h ⊢
              cases hl : RecursiveListSecret fuel c mount "" version st.secretListPath with
              | error e => rw [hl] at h; cases h
              | ok r =>
                rw [hl] at h
                simp only at h ⊢
                cases h
                exact foldlM_map_items version _ _
                  (fun st s => by simp only [loopBody, if_neg h2]) _ _
            · rw [if_neg h1] at h ⊢
              by_cases h2 : version = "2"
              · rw [if_pos h2] at h ⊢
                cases hl : RecursiveListSecret fuel c mount "" version st.secretListPath with
                | error e => rw [hl] at h; cases h
                | ok r =>
                  rw [hl] at h
                  simp only at h ⊢
                  cases h
                  exact foldlM_map_items version _ _
                    (fun st s => by simp only [loopBody, if_pos h2]) _ _
              · rw [if_neg h2] at h ⊢
                cases h
                rfl
      · rw [if_neg he] at h ⊢
        cases h
        rfl

/-- The loop of GetValues over the mounts, under an invariant of the secrets still to be
read and the mapping. -/
theorem foldlM_fetchMount_items (fuel : Nat) (c : Client) (lib : Codec)
    (I : List (String × String) → Vars → Prop)
    (hstep : ∀ it rest mount st st2, I (it :: rest) st.vars →
      loopBody it.1 c lib mount st it.2 = .ok st2 → I rest st2.vars) :
    ∀ (mounts : List String) (st : Fetch) (its : List (String × String)),
      workItems fuel c lib mounts st.secretListPath = .ok its →
      (∀ it ∈ its, (c.read it.2).1 ≠ none) → I its st.vars →
      ∃ f, mounts.foldlM (fetchMount fuel c lib) st = .ok f ∧ I [] f.vars := by
  intro mounts
  induction mounts with
  | nil =>
    intro st its h _ hI
    cases h
    exact ⟨st, rfl, hI⟩
  | cons m mounts ih =>
    intro st its h hreads hI
    rw [workItems] at h
    simp only [bind, Except.bind, pure, Except.pure] at h
    cases h1 : mountItems fuel c lib st.secretListPath m with
    | error e => rw [h1] at h; cases h
    | ok r =>
      obtain ⟨its1, g1⟩ := r
      rw [h1] at h
      simp only at h
      cases h2 : workItems fuel c lib mounts g1 with
      | error e => rw [h2] at h; cases h
      | ok rest =>
        rw [h2] at h
        cases h
        obtain ⟨st1, hf1, hI1, hg1⟩ := foldlM_loopBody c lib m I hstep its1 rest
          ⟨st.vars, g1, st.requests ++ [Request.readRaw ("/sys/internal/ui/mounts/" ++ m)]⟩
          (fun x hx => hreads x (List.mem_append_left _ hx)) hI
        obtain ⟨f, hf, hIf⟩ := ih st1 rest (by rw [hg1]; exact h2)
          (fun x hx => hreads x (List.mem_append_right _ hx)) hI1
        refine ⟨f, ?_, hIf⟩
        rw [List.foldlM_cons, fetchMount_items h1, hf1]
        exact hf

theorem getMount_foldlM : ∀ (paths mounts acc : List String),
    List.Forall₂ (fun p m => getMount (strings.TrimRight p "/*") = .ok m) paths mounts →
    paths.foldlM (fun (mounts : List String) path =>
      (do pure (mounts ++ [← getMount (strings.TrimRight path "/*")]) : Run (List String)))
      acc = .ok (acc ++ mounts) := by
  intro paths mounts acc h
  induction h generalizing acc with
  | nil => simp [List.foldlM_nil]; rfl
  | @cons p m ps ms hg _ ih =>
    rw [List.foldlM_cons]
    have := ih (acc ++ [m])
    simp only [List.append_assoc, List.singleton_append] at this
    rw [← this]
    simp only [hg, bind, Except.bind, pure, Except.pure]

theorem held_frame {p js : String} {v : Value} {vars vars2 : Vars}
    (h : FieldsHeld p v vars ∧ (KeysDiffer p v → vars p = some js))
    (hk : ∀ k, blobKeys p v k → vars2 k = vars k) :
    FieldsHeld p v vars2 ∧ (KeysDiffer p v → vars2 p = some js) := by
  refine ⟨?_, ?_⟩
  · intro f hf
    obtain ⟨g, hg, hgk, hv⟩ := h.1 f hf
    exact ⟨g, hg, hgk, by rw [hk _ (Or.inr ⟨f, hf, rfl⟩)]; exact hv⟩
  · intro hd
    rw [hk p (Or.inl rfl)]
    exact h.2 hd

/-- One run of the loop body for a secret keeps the invariant `Pending`. -/
theorem processed_step (c : Client) (lib : Codec) (version p : String) (resp : Secret)
    (e : Option Error) (hr : c.read p = (some resp, e)) :
    ∀ (it : String × String) (rest : List (String × String)) (mount : String)
      (st st2 : Fetch), Pending c lib version p resp (it :: rest) st.vars →
      loopBody it.1 c lib mount st it.2 = .ok st2 → Pending c lib version p resp rest st2.vars := by
  intro it rest mount st st2 hI hrun
  have hself : it = (version, p) →
      FieldsHeld p (payloadOf version resp) st2.vars ∧
        (KeysDiffer p (payloadOf version resp) →
          st2.vars p = some (lib.Marshal (payloadOf version resp))) := by
    intro hit
    subst hit
    obtain ⟨st3, h3, hv, _⟩ := loopBody_vars version c lib mount st p resp (by rw [hr])
    rw [hrun] at h3
    cases h3
    rw [hv]
    exact flatten_blob p _ mount _ _
  rcases hI with ⟨pre2, post2, hsplit, hfr⟩ | ⟨hpost, hfr⟩
  · cases pre2 with
    | nil =>
      simp only [List.nil_append, List.cons.injEq] at hsplit
      obtain ⟨hit, hrest⟩ := hsplit
      subst hrest
      exact Or.inr ⟨hself hit, hfr⟩
    | cons a pre2 =>
      simp only [List.cons_append, List.cons.injEq] at hsplit
      exact Or.inl ⟨pre2, post2, hsplit.2, hfr⟩
  · refine Or.inr ⟨?_, fun x hx => hfr x (List.mem_cons_of_mem _ hx)⟩
    by_cases hit : it = (version, p)
    · exact hself hit
    · exact held_frame hpost (hfr it (List.mem_cons_self _ _) hit mount st st2 hrun)

/-- C18, amended: take a call of GetValues in which every prefix has a mount, the probing
and listing of the distinct mounts gives, in the order of the reads, the secrets `pre`, then
the secret `p` for a mount of the version `version`, then the secrets `post`, and every one
of these secrets is read successfully, `p` with the response `resp`; the payload of `p` is
the data of `resp` for version 1 and its inner `data` for version 2. Suppose that reading
any other secret of `post` leaves the key `p` and the keys written for the string fields of
the payload as they are. Then GetValues returns a mapping that holds the flattened string
fields of `p`: under the key written for each string field, the string of a field written
under that key. The mapping holds the whole-secret blob under `p` whenever every key
written by flattening the payload differs from `p`. Every such key differs from `p` when
`p` is not empty and each string field either lies below the top of the payload, is reached
by entry names that are non-empty, without `/`, not `.` and not `..`, and has a key without
`data/`, or `p` contains `data/` and the key written for the field does not. -/
theorem GetValues_blob_and_fields_coexist (fuel : Nat) (c : Client) (lib : Codec)
    (paths secretListPath mounts : List String) (pre post : List (String × String))
    (version p : String) (resp : Secret) (e : Option Error)
    (hmounts : List.Forall₂ (fun q m => getMount (strings.TrimRight q "/*") = .ok m) paths
      mounts)
    (hitems : workItems fuel c lib (uniqMounts mounts) secretListPath =
      .ok (pre ++ (version, p) :: post))
    (hreads : ∀ it ∈ pre ++ (version, p) :: post, (c.read it.2).1 ≠ none)
    (hr : c.read p = (some resp, e))
    (hframe : ∀ it ∈ post, it ≠ (version, p) →
      KeepsKeys c lib p (payloadOf version resp) it) :
    ∃ f, GetValues fuel c lib paths secretListPath = .ok f ∧
      FieldsHeld p (payloadOf version resp) f.vars ∧
      (KeysDiffer p (payloadOf version resp) →
        f.vars p = some (lib.Marshal (payloadOf version resp))) ∧
      (p ≠ "" → GoodFields p (payloadOf version resp) →
        KeysDiffer p (payloadOf version resp)) := by
  have hstep := processed_step c lib version p resp e hr
  obtain ⟨f, hf, hI⟩ := foldlM_fetchMount_items fuel c lib
    (Pending c lib version p resp) hstep (uniqMounts mounts)
    ⟨fun _ => none, secretListPath, []⟩ _ hitems hreads (Or.inl ⟨pre, post, rfl, hframe⟩)
  refine ⟨f, ?_, ?_⟩
  · unfold GetValues
    have hm := getMount_foldlM paths mounts [] hmounts
    simp only [List.nil_append] at hm
    simp only [bind, Except.bind, pure, Except.pure] at hm ⊢
    rw [hm]
    exact hf
  · rcases hI with ⟨pre2, post2, hsplit, _⟩ | ⟨hpost, _⟩
    · cases pre2 <;> simp at hsplit
    · exact ⟨hpost.1, hpost.2, fun hp hg => goodFields_keysDiffer hp hg⟩

theorem mixed_fields :
    (payloadOf "2" ⟨[("data", .map [("g", .str "w"), ("n", .num "7")]),
      ("metadata", .map [("version", .num "1")])], none⟩).fields = [(["g"], "w")] := rfl

theorem mixed_keeps : KeepsKeys mixedStore mixedCodec "/b/data/z"
    (payloadOf "2" ⟨[("data", .map [("g", .str "w"), ("n", .num "7")]),
      ("metadata", .map [("version", .num "1")])], none⟩) ("2", "/a/x") := by
  intro mount st st2 h k hk
  obtain ⟨st3, h3, hv, _⟩ := loopBody_vars "2" mixedStore mixedCodec mount st "/a/x"
    ⟨[("f", .str "v")], none⟩ rfl
  rw [h] at h3
  cases h3
  rw [hv]
  have hp : payloadOf "2" ⟨[("f", .str "v")], none⟩ = .null := rfl
  have hne : k ≠ "/a/x" := by
    rcases hk with rfl | ⟨f, hf, rfl⟩
    · decide
    · rw [mixed_fields, List.mem_singleton] at hf
      subst hf
      decide
  simp only [hp, flatten, Vars.set, if_neg hne]

/-- C18 amended, at the secret `/b/data/z` of the version 2 mount of `mixedStore`, whose
payload has the string field `g` and the number field `n`; it is read after the secret
`/a/x` of the version 1 mount and before the second read of `/a/x`. -/
theorem GetValues_blob_and_fields_coexist_witness :
    GoodFields "/b/data/z" (.map [("g", .str "w"), ("n", .num "7")]) ∧
    ∃ f, GetValues 5 mixedStore mixedCodec ["/a", "/b/*"] [] = .ok f ∧
      FieldsHeld "/b/data/z" (.map [("g", .str "w"), ("n", .num "7")]) f.vars ∧
      (KeysDiffer "/b/data/z" (.map [("g", .str "w"), ("n", .num "7")]) →
        f.vars "/b/data/z" = some "js") ∧
      ("/b/data/z" ≠ "" → GoodFields "/b/data/z" (.map [("g", .str "w"), ("n", .num "7")]) →
        KeysDiffer "/b/data/z" (.map [("g", .str "w"), ("n", .num "7")])) :=
  ⟨by
    intro f hf
    have hfields : (Value.map [("g", .str "w"), ("n", .num "7")]).fields = [(["g"], "w")] := rfl
    rw [hfields, List.mem_singleton] at hf
    subst hf
    exact Or.inr (by decide),
   GetValues_blob_and_fields_coexist 5 mixedStore mixedCodec ["/a", "/b/*"] [] ["/a", "/b"]
    [("1", "/a/x")] [("2", "/a/x")] "2" "/b/data/z"
    ⟨[("data", .map [("g", .str "w"), ("n", .num "7")]),
      ("metadata", .map [("version", .num "1")])], none⟩ none
    (.cons rfl (.cons rfl .nil)) rfl
    (by
      intro it hit
      simp only [List.cons_append, List.nil_append, List.mem_cons, List.mem_singleton,
        List.not_mem_nil, or_false] at hit
      rcases hit with rfl | rfl | rfl <;> simp [mixedStore])
    rfl
    (by
      intro it hit _
      rw [List.mem_singleton] at hit
      subst hit
      exact mixed_keeps)⟩

/-- C18 as stated fails. In the version 1 mount `/a` of `blobStore`, the secret `/a/mydata`
has the field `data`, whose key `/a/mydata/data` becomes `/a/mydata` when `data/` is
deleted, and the secret `/a/x` has a field named `.`, whose joined key is `/a/x`: both are
discovered and read, and in both the field overwrites the blob `js` of its own secret. In
`nestedStore` the secret `/a/x/y` is discovered and read, and its blob `js` is overwritten
by the field `y` of the secret `/a/x`, which is read after it. In `mixedStore` the secret
`/a/x` of the version 1 mount is discovered and read, and it is read again by the loop for
the version 2 mount `/b`, which finds it still in `secretListPath` and overwrites its blob
`js` with the blob `null` of an absent inner `data`. -/
theorem GetValues_blob_and_fields_coexist_counterexample :
    exampleCodec.Marshal (.map [("data", .str "v")]) = "js" ∧
    exampleCodec.Marshal (.map [(".", .str "w")]) = "js" ∧
    writtenKey "/a/mydata" ["data"] = "/a/mydata" ∧ writtenKey "/a/x" ["."] = "/a/x" ∧
    (GetValues 5 blobStore exampleCodec ["/a/x"] []).map
        (fun f => (f.requests, f.vars "/a/mydata", f.vars "/a/x")) =
      .ok ([.readRaw "/sys/internal/ui/mounts//a", .read "/a/x", .read "/a/mydata"],
        some "v", some "w") ∧
    exampleCodec.Marshal (.map [("f", .str "v")]) = "js" ∧
    (GetValues 5 nestedStore exampleCodec ["/a"] []).map
        (fun f => (f.requests, f.vars "/a/x/y", f.vars "/a/x/y/f")) =
      .ok ([.readRaw "/sys/internal/ui/mounts//a", .read "/a/x/y", .read "/a/x"],
        some "w", some "v") ∧
    mixedCodec.Marshal (.map [("f", .str "v")]) = "js" ∧
    (GetValues 5 mixedStore mixedCodec ["/a", "/b/*"] []).map
        (fun f => (f.requests, f.vars "/a/x", f.vars "/a/x/f")) =
      .ok ([.readRaw "/sys/internal/ui/mounts//a", .read "/a/x",
        .readRaw "/sys/internal/ui/mounts//b", .read "/b/data/z", .read "/a/x"],
        some "null", some "v") :=
  ⟨rfl, rfl, by decide, by decide, rfl, rfl, rfl, rfl, rfl⟩

end vault
